import Mathlib

/-!
# ExpiringLruCache

A shallow embedding of `include/gh-lru/expiring_lru_cache.hpp` and a verification of
its documented behaviour.

## Modelling choices

* `std::list<K> m_used` is a list of *nodes*.  A node has an identity (its address in
  C++) and a key.  A `std::list` iterator is the identity of the node it points to; the
  past-the-end iterator is the identity of the list's sentinel node, `listEnd`.  Node
  identities survive `splice`, exactly as C++ iterators do.
* `std::unordered_map<K, tuple<V, list_it_t, time_point_t>> m_cache` is an association
  list.  Nothing in the class iterates over the map, so the bucket order is irrelevant.
* `steady_clock::time_point` is an integer count of clock ticks (nanoseconds, the period
  of `steady_clock` in libstdc++ and libc++).  Every public call takes the clock value
  `now` that `clock_t::now()` returns during the call.  Tick counts are unbounded
  integers: a 64-bit tick count covers about 292 years, and its overflow is not modelled.
* Undefined behaviour (dereferencing an iterator that points to no node, `back()` or
  `pop_back()` on an empty list) is the result `none`.
-/

namespace ExpiringLruCache

/-- Ticks of `steady_clock` per second: `steady_clock::period` is `std::nano`. -/
def ticksPerSecond : Int := 1000000000

/-- The value of `duration_cast<seconds>(d).count()` for a tick count `d`: integer
division by the tick rate, which in C++ truncates toward zero. -/
def durationCastSeconds (d : Int) : Int := Int.tdiv d ticksPerSecond

/-- The mapped type `tuple_t = std::tuple<V, list_it_t, time_point_t>`. -/
structure Entry (V : Type) where
  /-- Component `std::get<0>`: the cached value. -/
  value : V
  /-- Component `std::get<1>`: iterator into `m_used`, the identity of a list node. -/
  it : Nat
  /-- Component `std::get<2>`: the time point of creation or last access, in ticks. -/
  time : Int
deriving DecidableEq, Repr

/-- A node of `std::list<K>`: its identity and the key it stores. -/
structure Node (K : Type) where
  /-- Identity of the node (what an iterator to it holds). -/
  id : Nat
  /-- The element stored in the node. -/
  key : K
deriving DecidableEq, Repr

/-- Identity of the sentinel node: the value of `m_used.end()`. -/
def listEnd : Nat := 0

section ListModel

variable {K : Type}

/-- Value of `l.begin()`: the first node, or the sentinel when the list is empty. -/
def listBegin : List (Node K) → Nat
  | [] => listEnd
  | n :: _ => n.id

/-- Node an iterator points to, if any (`none` for `end()` and for dangling iterators). -/
def listDeref : List (Node K) → Nat → Option (Node K)
  | [], _ => none
  | n :: rest, it => if n.id = it then some n else listDeref rest it

/-- List without the node of identity `it`. -/
def listUnlink : List (Node K) → Nat → List (Node K)
  | [], _ => []
  | n :: rest, it => if n.id = it then rest else n :: listUnlink rest it

/-- Model of `l.erase(it)`: unlinks the node `it` points to; undefined when `it` points
to no node of `l`. -/
def listErase (l : List (Node K)) (it : Nat) : Option (List (Node K)) :=
  match listDeref l it with
  | none => none
  | some _ => some (listUnlink l it)

/-- Model of `l.splice(l.begin(), l, it)`: the node `it` points to is relinked at the
front and keeps its identity; undefined when `it` points to no node of `l`. -/
def listSpliceFront (l : List (Node K)) (it : Nat) : Option (List (Node K)) :=
  match listDeref l it with
  | none => none
  | some n => some (n :: listUnlink l it)

/-- Model of `l.back()`: the key in the last node; undefined on an empty list. -/
def listBack (l : List (Node K)) : Option K :=
  (l.getLast?).map Node.key

/-- Model of `l.pop_back()`: undefined on an empty list. -/
def listPopBack : List (Node K) → Option (List (Node K))
  | [] => none
  | n :: rest => some ((n :: rest).dropLast)

end ListModel

section MapModel

variable {K V : Type} [DecidableEq K]

/-- Model of `m.find(key)`: the entry stored under `key`, `none` standing for `m.end()`. -/
def mapFind : List (K × Entry V) → K → Option (Entry V)
  | [], _ => none
  | (k, e) :: rest, key => if k = key then some e else mapFind rest key

/-- Model of `m.erase(key)` and of `m.erase(it)` for an iterator to the entry of `key`. -/
def mapErase : List (K × Entry V) → K → List (K × Entry V)
  | [], _ => []
  | (k, e) :: rest, key => if k = key then rest else (k, e) :: mapErase rest key

/-- In-place modification of the entry of `key` through a map iterator. -/
def mapModify : List (K × Entry V) → K → (Entry V → Entry V) → List (K × Entry V)
  | [], _, _ => []
  | (k, e) :: rest, key, f =>
    if k = key then (k, f e) :: rest else (k, e) :: mapModify rest key f

/-- Model of `m[key] = e`: assigns to the entry of `key`, inserting it when absent. -/
def mapAssign : List (K × Entry V) → K → Entry V → List (K × Entry V)
  | [], key, e => [(key, e)]
  | (k, x) :: rest, key, e =>
    if k = key then (k, e) :: rest else (k, x) :: mapAssign rest key e

end MapModel

end ExpiringLruCache

/-- The class `ExpiringLruCache<K, V>`: its four data members, and the supply of fresh
node identities of the allocator behind `m_used`. -/
structure ExpiringLruCache (K V : Type) where
  /-- Member `m_cache`: the index from keys to entries. -/
  m_cache : List (K × ExpiringLruCache.Entry V)
  /-- Member `m_used`: the keys, most recently used first. -/
  m_used : List (ExpiringLruCache.Node K)
  /-- Member `m_capacity`. -/
  m_capacity : Nat
  /-- Member `m_ttl`, as `m_ttl.count()`: a number of seconds. -/
  m_ttl : Int
  /-- Identity the next allocated list node receives. -/
  nextNode : Nat

namespace ExpiringLruCache

variable {K V : Type} [DecidableEq K]

/-- The constructor `ExpiringLruCache(size_t capacity, unsigned int ttl)`: it stores the
capacity, converts `ttl` to a duration in seconds and leaves both containers empty. -/
def new (capacity ttl : Nat) : ExpiringLruCache K V :=
  { m_cache := [], m_used := [], m_capacity := capacity, m_ttl := (ttl : Int),
    nextNode := listEnd + 1 }

/-- Model of `size()`. -/
def size (c : ExpiringLruCache K V) : Nat := c.m_cache.length

/-- Model of `_listSize()`. -/
def _listSize (c : ExpiringLruCache K V) : Nat := c.m_used.length

/-- The private `touch(it)` for a map iterator to the entry of `key`, whose content is
`e`: splices the entry's list node to the front, then stores `m_used.begin()` and the
clock value in the entry. Returns the entry as modified and the cache. -/
def touch (c : ExpiringLruCache K V) (key : K) (e : Entry V) (now : Int) :
    Option (Entry V × ExpiringLruCache K V) :=
  match listSpliceFront c.m_used e.it with
  | none => none
  | some used =>
    some ({ e with it := listBegin used, time := now },
      { c with
        m_used := used
        m_cache := mapModify c.m_cache key
          (fun x => { x with it := listBegin used, time := now }) })

/-- The condition of the inner `if` of `find`:
`duration_cast<seconds>(clock_t::now() - std::get<2>(it->second)).count() > m_ttl.count()`. -/
def isExpired (c : ExpiringLruCache K V) (e : Entry V) (now : Int) : Bool :=
  decide (durationCastSeconds (now - e.time) > c.m_ttl)

/-- Model of `find(key)` at clock value `now`. The first component of the result is the
returned iterator: `none` for `m_cache.end()`, otherwise the key and the entry it
points to. -/
def find (c : ExpiringLruCache K V) (key : K) (now : Int) :
    Option (Option (K × Entry V) × ExpiringLruCache K V) :=
  match mapFind c.m_cache key with
  | none => some (none, c)
  | some e =>
    if isExpired c e now then
      match listErase c.m_used e.it with
      | none => none
      | some used =>
        some (none, { c with m_used := used, m_cache := mapErase c.m_cache key })
    else
      match touch c key e now with
      | none => none
      | some (e1, c1) => some (some (key, e1), c1)

/-- The exception `std::out_of_range` thrown by `at`. -/
inductive Exception where
  | out_of_range : Exception
deriving DecidableEq, Repr

/-- Model of `at(key)` at clock value `now`: the value found, or the exception thrown,
together with the cache as `find` left it. -/
def at_ (c : ExpiringLruCache K V) (key : K) (now : Int) :
    Option (Except Exception V × ExpiringLruCache K V) :=
  match find c key now with
  | none => none
  | some (none, c1) => some (Except.error Exception.out_of_range, c1)
  | some (some (_, e), c1) => some (Except.ok e.value, c1)

/-- Model of `emplace(key, value)` at clock value `now`. -/
def emplace (c : ExpiringLruCache K V) (key : K) (value : V) (now : Int) :
    Option (ExpiringLruCache K V) :=
  match mapFind c.m_cache key with
  | some e =>
    match touch c key e now with
    | none => none
    | some (_, c1) =>
      some { c1 with
        m_cache := mapAssign c1.m_cache key
          { value := value, it := listBegin c1.m_used, time := now } }
  | none =>
    let evicted : Option (ExpiringLruCache K V) :=
      if c.m_cache.length = c.m_capacity then
        match listBack c.m_used, listPopBack c.m_used with
        | some last, some used =>
          some { c with m_cache := mapErase c.m_cache last, m_used := used }
        | _, _ => none
      else some c
    match evicted with
    | none => none
    | some c1 =>
      let used := { id := c1.nextNode, key := key } :: c1.m_used
      some { c1 with
        m_used := used
        nextNode := c1.nextNode + 1
        m_cache := mapAssign c1.m_cache key
          { value := value, it := listBegin used, time := now } }

/-- Outcome of a constructor call `ExpiringLruCache(capacity, ttl)`: the constructed
object, or the exception that left the constructor. The constructor body has no `throw`
and calls nothing that validates its arguments. -/
def construct (capacity ttl : Nat) : Except Exception (ExpiringLruCache K V) :=
  Except.ok (new capacity ttl)

/-- A call of one of the public member functions, with the clock value during the call. -/
inductive Op (K V : Type) where
  | find (key : K) (now : Int) : Op K V
  | at_ (key : K) (now : Int) : Op K V
  | emplace (key : K) (value : V) (now : Int) : Op K V
  | size : Op K V

/-- The cache after a call, when the call has defined behaviour. A call of `at` that
throws still leaves the cache as its inner `find` left it. -/
def step (c : ExpiringLruCache K V) : Op K V → Option (ExpiringLruCache K V)
  | Op.find key now => (find c key now).map Prod.snd
  | Op.at_ key now => (at_ c key now).map Prod.snd
  | Op.emplace key value now => emplace c key value now
  | Op.size => some c

/-- States reachable from a freshly constructed cache by calls of `find`, `at`, `emplace`
and `size` at arbitrary clock values. -/
inductive Reachable (capacity ttl : Nat) : ExpiringLruCache K V → Prop where
  | init : Reachable capacity ttl (new capacity ttl)
  | step {c c1 : ExpiringLruCache K V} (op : Op K V) :
      Reachable capacity ttl c → step c op = some c1 → Reachable capacity ttl c1

/-- The keys of the Order list `m_used`, front to back. -/
def orderKeys (c : ExpiringLruCache K V) : List K := c.m_used.map Node.key

/-- The keys of the Index `m_cache`. -/
def indexKeys (c : ExpiringLruCache K V) : List K := c.m_cache.map Prod.fst

/-- Representation invariant linking the Index and the Order list. -/
structure Inv (c : ExpiringLruCache K V) : Prop where
  /-- The map holds one entry per key. -/
  keysNodup : (c.m_cache.map Prod.fst).Nodup
  /-- Distinct list nodes have distinct identities. -/
  idsNodup : (c.m_used.map Node.id).Nodup
  /-- The iterator stored in an entry points to a list node that holds the entry's key. -/
  indexToOrder : ∀ k e, mapFind c.m_cache k = some e → (Node.mk e.it k) ∈ c.m_used
  /-- Every list node is the node of the entry of its key. -/
  orderToIndex : ∀ n ∈ c.m_used, ∃ e, mapFind c.m_cache n.key = some e ∧ e.it = n.id
  /-- Identities in use are below the next fresh identity. -/
  idsFresh : ∀ n ∈ c.m_used, n.id < c.nextNode
  /-- Both containers have the same number of elements. -/
  sizeEq : c.m_cache.length = c.m_used.length
  /-- The capacity bounds the number of entries. -/
  sizeLe : c.m_cache.length ≤ c.m_capacity

/-- Consecutive `emplace` calls, one per element of the list (key, value, clock value). -/
def emplaceAll (c : ExpiringLruCache K V) : List (K × V × Int) → Option (ExpiringLruCache K V)
  | [] => some c
  | (k, v, now) :: rest =>
    match emplace c k v now with
    | none => none
    | some c1 => emplaceAll c1 rest

/-- The cache of the test fixture (capacity 3, ttl 1 s) after `emplace` of the keys 1, 2
and 3 at clock value 0: the Order list reads 3, 2, 1 from front to back. -/
def typicalCache : ExpiringLruCache Nat Nat :=
  { m_cache := [(1, ⟨10, 1, 0⟩), (2, ⟨20, 2, 0⟩), (3, ⟨30, 3, 0⟩)]
    m_used := [⟨3, 3⟩, ⟨2, 2⟩, ⟨1, 1⟩]
    m_capacity := 3
    m_ttl := 1
    nextNode := 4 }

/-- Consecutive `find(key)` calls, one per clock value of the list: the iterators returned,
in call order, and the cache after the last call. -/
def findAll (c : ExpiringLruCache K V) (key : K) :
    List Int → Option (List (Option (K × Entry V)) × ExpiringLruCache K V)
  | [] => some ([], c)
  | now :: rest =>
    match find c key now with
    | none => none
    | some (r, c1) =>
      match findAll c1 key rest with
      | none => none
      | some (rs, c2) => some (r :: rs, c2)

/-- The clock value read during a call; `size()` reads no clock. -/
def Op.clock : Op K V → Option Int
  | Op.find _ now => some now
  | Op.at_ _ now => some now
  | Op.emplace _ _ now => some now
  | Op.size => none

/-- States reachable from a freshly constructed cache when the clock is monotonic: every
call reads a clock value that is at least the value read by the call before it. The
index `t` is the clock value of the most recent call (the clock value at construction
when no call has read the clock yet). -/
inductive MonoReachable (capacity ttl : Nat) : Int → ExpiringLruCache K V → Prop where
  | init (t0 : Int) : MonoReachable capacity ttl t0 (new capacity ttl)
  | step {t : Int} {c c1 : ExpiringLruCache K V} (op : Op K V) :
      MonoReachable capacity ttl t c → (∀ now ∈ op.clock, t ≤ now) →
      step c op = some c1 → MonoReachable capacity ttl (op.clock.getD t) c1

/-- The `last_touched` time points read along the Order list `m_used`, front to back. -/
def orderTimes (c : ExpiringLruCache K V) : List Int :=
  c.m_used.filterMap (fun n => (mapFind c.m_cache n.key).map Entry.time)

/-- The values located by the `find` calls of a sequence of calls, in call order (`none`
for a `find` that returns `end()`); the other calls only change the cache. -/
def runFinds (c : ExpiringLruCache K V) : List (Op K V) → Option (List (Option V))
  | [] => some []
  | Op.find key now :: rest =>
    match find c key now with
    | none => none
    | some (r, c1) => (runFinds c1 rest).map (fun out => r.map (fun x => x.2.value) :: out)
  | Op.at_ key now :: rest =>
    match step c (Op.at_ key now) with
    | none => none
    | some c1 => runFinds c1 rest
  | Op.emplace key value now :: rest =>
    match step c (Op.emplace key value now) with
    | none => none
    | some c1 => runFinds c1 rest
  | Op.size :: rest => runFinds c rest

/-- Specification side of the plain-map comparison: what the `find` calls of a sequence
of calls return when the container is an ordinary key-value map `m`, in which
`emplace(k, v)` binds `k` to `v` and nothing is ever removed. -/
def plainFinds (m : K → Option V) : List (Op K V) → List (Option V)
  | [] => []
  | Op.find key _ :: rest => m key :: plainFinds m rest
  | Op.at_ _ _ :: rest => plainFinds m rest
  | Op.emplace key value _ :: rest =>
    plainFinds (fun j => if j = key then some value else m j) rest
  | Op.size :: rest => plainFinds m rest

/-- The keys passed to the `emplace` calls of a sequence of calls. -/
def emplacedKeys : List (Op K V) → List K
  | [] => []
  | Op.emplace key _ _ :: rest => key :: emplacedKeys rest
  | _ :: rest => emplacedKeys rest

/-- The fixture cache (capacity 3, ttl 1 s) after `emplace` of key 1 at clock value 0, of
key 2 at clock value 5 and of key 3 at clock value 9 (in ticks). -/
def stagedCache : ExpiringLruCache Nat Nat :=
  { m_cache := [(1, ⟨10, 1, 0⟩), (2, ⟨20, 2, 5⟩), (3, ⟨30, 3, 9⟩)]
    m_used := [⟨3, 3⟩, ⟨2, 2⟩, ⟨1, 1⟩]
    m_capacity := 3
    m_ttl := 1
    nextNode := 4 }

/-- Simulation relation of the plain-map comparison: the cache `c` holds exactly the
bindings of the plain map `m`, every entry was touched at or after `t0`, every key of
the Index is in `S`, and the capacity is at least the number of distinct keys of `S`. -/
structure PlainSim (ttl : Nat) (t0 : Int) (S : List K) (c : ExpiringLruCache K V)
    (m : K → Option V) : Prop where
  /-- The cache satisfies the representation invariant. -/
  inv : Inv c
  /-- The cache has the given ttl. -/
  ttl_eq : c.m_ttl = (ttl : Int)
  /-- The capacity suffices for all keys of `S`. -/
  room : S.dedup.length ≤ c.m_capacity
  /-- The Index and the plain map bind the same keys to the same values. -/
  values : ∀ j, (mapFind c.m_cache j).map Entry.value = m j
  /-- Every entry was touched at or after `t0`. -/
  times : ∀ j e, mapFind c.m_cache j = some e → t0 ≤ e.time
  /-- Every key of the Index is in `S`. -/
  keys : ∀ j ∈ indexKeys c, j ∈ S

/-! ## The association list -/

theorem mapFind_mem {m : List (K × Entry V)} {k : K} {e : Entry V}
    (h : mapFind m k = some e) : (k, e) ∈ m := by
  induction m with
  | nil => simp [mapFind] at h
  | cons p rest ih =>
    obtain ⟨k0, e0⟩ := p
    by_cases hk : k0 = k
    · simp [mapFind, hk] at h
      simp [hk, h]
    · simp [mapFind, hk] at h
      exact List.mem_cons_of_mem _ (ih h)

theorem mapFind_isSome_iff {m : List (K × Entry V)} {k : K} :
    (mapFind m k).isSome ↔ k ∈ m.map Prod.fst := by
  induction m with
  | nil => simp [mapFind]
  | cons p rest ih =>
    obtain ⟨k0, e0⟩ := p
    by_cases hk : k0 = k
    · simp [mapFind, hk]
    · have hk1 : ¬ k = k0 := fun h => hk h.symm
      simp only [mapFind, hk, if_false, ih, List.map_cons, List.mem_cons, hk1, false_or]

theorem mapFind_eq_none_iff {m : List (K × Entry V)} {k : K} :
    mapFind m k = none ↔ k ∉ m.map Prod.fst := by
  rw [← mapFind_isSome_iff]
  cases mapFind m k <;> simp

theorem mapFind_mapErase_ne {m : List (K × Entry V)} {k j : K} (h : j ≠ k) :
    mapFind (mapErase m k) j = mapFind m j := by
  induction m with
  | nil => simp [mapErase]
  | cons p rest ih =>
    obtain ⟨k0, e0⟩ := p
    by_cases hk : k0 = k
    · subst hk
      have hj : ¬ k0 = j := fun h1 => h h1.symm
      simp [mapErase, mapFind, hj]
    · by_cases hj : k0 = j
      · subst hj
        simp [mapErase, mapFind, hk]
      · simp [mapErase, mapFind, hk, hj, ih]

theorem mapErase_keys_sublist (m : List (K × Entry V)) (k : K) :
    List.Sublist ((mapErase m k).map Prod.fst) (m.map Prod.fst) := by
  induction m with
  | nil => simp [mapErase]
  | cons p rest ih =>
    obtain ⟨k0, e0⟩ := p
    by_cases hk : k0 = k
    · simp [mapErase, hk]
    · simp [mapErase, hk, ih]

theorem mapFind_mapErase_self {m : List (K × Entry V)} {k : K}
    (hn : (m.map Prod.fst).Nodup) : mapFind (mapErase m k) k = none := by
  induction m with
  | nil => simp [mapErase, mapFind]
  | cons p rest ih =>
    obtain ⟨k0, e0⟩ := p
    simp only [List.map_cons, List.nodup_cons] at hn
    by_cases hk : k0 = k
    · subst hk
      simp only [mapErase, if_true]
      exact mapFind_eq_none_iff.mpr hn.1
    · simp [mapErase, mapFind, hk, ih hn.2]

theorem mapErase_length {m : List (K × Entry V)} {k : K} {e : Entry V}
    (h : mapFind m k = some e) : (mapErase m k).length + 1 = m.length := by
  induction m with
  | nil => simp [mapFind] at h
  | cons p rest ih =>
    obtain ⟨k0, e0⟩ := p
    by_cases hk : k0 = k
    · simp [mapErase, hk]
    · simp [mapFind, hk] at h
      simp [mapErase, hk, ih h]

theorem mapErase_absent {m : List (K × Entry V)} {k : K}
    (h : mapFind m k = none) : mapErase m k = m := by
  induction m with
  | nil => simp [mapErase]
  | cons p rest ih =>
    obtain ⟨k0, e0⟩ := p
    by_cases hk : k0 = k
    · simp [mapFind, hk] at h
    · simp [mapFind, hk] at h
      simp [mapErase, hk, ih h]

theorem mapFind_mapModify {m : List (K × Entry V)} {k j : K} {f : Entry V → Entry V} :
    mapFind (mapModify m k f) j = if j = k then (mapFind m k).map f else mapFind m j := by
  induction m with
  | nil => simp [mapModify, mapFind]
  | cons p rest ih =>
    obtain ⟨k0, e0⟩ := p
    by_cases hk : k0 = k
    · subst hk
      by_cases hj : j = k0
      · subst hj; simp [mapModify, mapFind]
      · have hj1 : ¬ k0 = j := fun h => hj h.symm
        simp [mapModify, mapFind, hj, hj1]
    · by_cases hj : j = k
      · subst hj
        simp [mapModify, mapFind, hk, ih]
      · simp only [mapModify, hk, if_false, mapFind, ih, hj]

theorem mapModify_keys (m : List (K × Entry V)) (k : K) (f : Entry V → Entry V) :
    (mapModify m k f).map Prod.fst = m.map Prod.fst := by
  induction m with
  | nil => simp [mapModify]
  | cons p rest ih =>
    obtain ⟨k0, e0⟩ := p
    by_cases hk : k0 = k
    · simp [mapModify, hk]
    · simp [mapModify, hk, ih]

theorem mapFind_mapAssign {m : List (K × Entry V)} {k j : K} {e : Entry V} :
    mapFind (mapAssign m k e) j = if j = k then some e else mapFind m j := by
  induction m with
  | nil =>
    by_cases hj : j = k
    · subst hj; simp [mapAssign, mapFind]
    · have hj1 : ¬ k = j := fun h => hj h.symm
      simp [mapAssign, mapFind, hj, hj1]
  | cons p rest ih =>
    obtain ⟨k0, e0⟩ := p
    by_cases hk : k0 = k
    · subst hk
      by_cases hj : j = k0
      · subst hj; simp [mapAssign, mapFind]
      · have hj1 : ¬ k0 = j := fun h => hj h.symm
        simp [mapAssign, mapFind, hj, hj1]
    · by_cases hj : j = k
      · subst hj
        simp [mapAssign, mapFind, hk, ih]
      · simp only [mapAssign, hk, if_false, mapFind, ih, hj]

theorem mapAssign_keys_present {m : List (K × Entry V)} {k : K} {e x : Entry V}
    (h : mapFind m k = some x) : (mapAssign m k e).map Prod.fst = m.map Prod.fst := by
  induction m with
  | nil => simp [mapFind] at h
  | cons p rest ih =>
    obtain ⟨k0, e0⟩ := p
    by_cases hk : k0 = k
    · simp [mapAssign, hk]
    · simp [mapFind, hk] at h
      simp [mapAssign, hk, ih h]

theorem mapAssign_keys_absent {m : List (K × Entry V)} {k : K} {e : Entry V}
    (h : mapFind m k = none) : (mapAssign m k e).map Prod.fst = m.map Prod.fst ++ [k] := by
  induction m with
  | nil => simp [mapAssign]
  | cons p rest ih =>
    obtain ⟨k0, e0⟩ := p
    by_cases hk : k0 = k
    · simp [mapFind, hk] at h
    · simp [mapFind, hk] at h
      simp [mapAssign, hk, ih h]

/-! ## The node list -/

section NodeList

omit [DecidableEq K]

theorem listDeref_some {l : List (Node K)} {it : Nat} {n : Node K}
    (h : listDeref l it = some n) : n ∈ l ∧ n.id = it := by
  induction l with
  | nil => simp [listDeref] at h
  | cons a rest ih =>
    by_cases ha : a.id = it
    · simp [listDeref, ha] at h
      subst h
      simp [ha]
    · simp [listDeref, ha] at h
      exact ⟨List.mem_cons_of_mem _ (ih h).1, (ih h).2⟩

theorem listDeref_eq_none_iff {l : List (Node K)} {it : Nat} :
    listDeref l it = none ↔ it ∉ l.map Node.id := by
  induction l with
  | nil => simp [listDeref]
  | cons a rest ih =>
    by_cases ha : a.id = it
    · simp [listDeref, ha]
    · have ha1 : ¬ it = a.id := fun h => ha h.symm
      simp [listDeref, ha, ha1, ih]

theorem node_eq_of_id_eq {l : List (Node K)} (hn : (l.map Node.id).Nodup)
    {a b : Node K} (ha : a ∈ l) (hb : b ∈ l) (hab : a.id = b.id) : a = b :=
  List.inj_on_of_nodup_map hn ha hb hab

theorem listDeref_of_mem {l : List (Node K)} (hn : (l.map Node.id).Nodup)
    {n : Node K} (h : n ∈ l) : listDeref l n.id = some n := by
  cases hd : listDeref l n.id with
  | none =>
    exact absurd (List.mem_map_of_mem Node.id h) (listDeref_eq_none_iff.mp hd)
  | some a =>
    have ha := listDeref_some hd
    rw [node_eq_of_id_eq hn ha.1 h ha.2]

theorem listUnlink_sublist (l : List (Node K)) (it : Nat) :
    List.Sublist (listUnlink l it) l := by
  induction l with
  | nil => simp [listUnlink]
  | cons a rest ih =>
    by_cases ha : a.id = it
    · simp [listUnlink, ha]
    · simp [listUnlink, ha, ih]

theorem mem_listUnlink {l : List (Node K)} (hn : (l.map Node.id).Nodup) {it : Nat}
    {n : Node K} : n ∈ listUnlink l it ↔ n ∈ l ∧ n.id ≠ it := by
  induction l with
  | nil => simp [listUnlink]
  | cons a rest ih =>
    simp only [List.map_cons, List.nodup_cons] at hn
    by_cases ha : a.id = it
    · simp only [listUnlink, ha, if_true, List.mem_cons]
      constructor
      · intro h
        refine ⟨Or.inr h, fun hid => hn.1 ?_⟩
        rw [ha, ← hid]
        exact List.mem_map_of_mem Node.id h
      · rintro ⟨h | h, hid⟩
        · exact absurd (h ▸ ha) hid
        · exact h
    · simp only [listUnlink, ha, if_false, List.mem_cons, ih hn.2]
      constructor
      · rintro (h | h)
        · exact ⟨Or.inl h, h ▸ ha⟩
        · exact ⟨Or.inr h.1, h.2⟩
      · rintro ⟨h | h, hid⟩
        · exact Or.inl h
        · exact Or.inr ⟨h, hid⟩

theorem listUnlink_length {l : List (Node K)} {it : Nat} {n : Node K}
    (h : listDeref l it = some n) : (listUnlink l it).length + 1 = l.length := by
  induction l with
  | nil => simp [listDeref] at h
  | cons a rest ih =>
    by_cases ha : a.id = it
    · simp [listUnlink, ha]
    · simp [listDeref, ha] at h
      simp [listUnlink, ha, ih h]

theorem listUnlink_absent {l : List (Node K)} {it : Nat}
    (h : it ∉ l.map Node.id) : listUnlink l it = l := by
  induction l with
  | nil => simp [listUnlink]
  | cons a rest ih =>
    simp only [List.map_cons, List.mem_cons, not_or] at h
    have ha : ¬ a.id = it := fun h1 => h.1 h1.symm
    simp [listUnlink, ha, ih h.2]

theorem listUnlink_append_last {l : List (Node K)} {n : Node K}
    (hn : ((l ++ [n]).map Node.id).Nodup) : listUnlink (l ++ [n]) n.id = l := by
  induction l with
  | nil => simp [listUnlink]
  | cons a rest ih =>
    rw [List.cons_append, List.map_cons, List.nodup_cons] at hn
    have ha : ¬ a.id = n.id := fun h =>
      hn.1 (h ▸ List.mem_map_of_mem Node.id (List.mem_append_right rest (List.mem_singleton_self n)))
    simp [listUnlink, ha, ih hn.2]

end NodeList

theorem listUnlink_keys {l : List (Node K)} (hk : (l.map Node.key).Nodup) {n : Node K}
    (h : n ∈ l) (hn : (l.map Node.id).Nodup) :
    (listUnlink l n.id).map Node.key = (l.map Node.key).erase n.key := by
  induction l with
  | nil => simp [listUnlink]
  | cons a rest ih =>
    simp only [List.map_cons, List.nodup_cons] at hk hn
    by_cases ha : a.id = n.id
    · have han : a = n := by
        rcases List.mem_cons.mp h with h1 | h1
        · exact h1.symm
        · exact absurd (ha ▸ List.mem_map_of_mem Node.id h1) hn.1
      subst han
      simp [listUnlink]
    · have hmem : n ∈ rest := by
        rcases List.mem_cons.mp h with h1 | h1
        · exact absurd (h1 ▸ rfl) ha
        · exact h1
      have hkey : ¬ a.key = n.key := fun h1 =>
        hk.1 (h1 ▸ List.mem_map_of_mem Node.key hmem)
      have hkey1 : (a.key == n.key) = false := by simpa using hkey
      simp [listUnlink, ha, List.erase_cons, hkey1, ih hk.2 hmem hn.2]

/-! ## Preservation of the representation invariant -/

theorem Inv.new (capacity ttl : Nat) : Inv (new capacity ttl : ExpiringLruCache K V) where
  keysNodup := by simp [ExpiringLruCache.new]
  idsNodup := by simp [ExpiringLruCache.new]
  indexToOrder := by intro k e h; simp [ExpiringLruCache.new, mapFind] at h
  orderToIndex := by intro n h; simp [ExpiringLruCache.new] at h
  idsFresh := by intro n h; simp [ExpiringLruCache.new] at h
  sizeEq := by simp [ExpiringLruCache.new]
  sizeLe := by simp [ExpiringLruCache.new]

theorem Inv.map_congr {c : ExpiringLruCache K V} (hc : Inv c) {m : List (K × Entry V)}
    (hkeys : m.map Prod.fst = c.m_cache.map Prod.fst)
    (hit : ∀ j, (mapFind m j).map Entry.it = (mapFind c.m_cache j).map Entry.it) :
    Inv { c with m_cache := m } where
  keysNodup := by
    show (m.map Prod.fst).Nodup
    rw [hkeys]; exact hc.keysNodup
  idsNodup := hc.idsNodup
  indexToOrder := by
    intro k e h
    have h1 := hit k
    simp only [show mapFind m k = some e from h, Option.map_some'] at h1
    cases hx : mapFind c.m_cache k with
    | none => simp [hx] at h1
    | some x =>
      simp only [hx, Option.map_some', Option.some.injEq] at h1
      have := hc.indexToOrder k x hx
      rw [← h1] at this
      exact this
  orderToIndex := by
    intro n hn
    obtain ⟨e, he, heid⟩ := hc.orderToIndex n hn
    have h1 := hit n.key
    simp only [he, Option.map_some'] at h1
    cases hx : mapFind m n.key with
    | none => simp [hx] at h1
    | some x =>
      simp only [hx, Option.map_some', Option.some.injEq] at h1
      exact ⟨x, rfl, h1.trans heid⟩
  idsFresh := hc.idsFresh
  sizeEq := by
    show m.length = c.m_used.length
    rw [← hc.sizeEq, ← List.length_map m Prod.fst, hkeys, List.length_map]
  sizeLe := by
    show m.length ≤ c.m_capacity
    rw [← List.length_map m Prod.fst, hkeys, List.length_map]
    exact hc.sizeLe

theorem Inv.used_congr {c : ExpiringLruCache K V} (hc : Inv c) {u : List (Node K)}
    (hmem : ∀ n, n ∈ u ↔ n ∈ c.m_used) (hnd : (u.map Node.id).Nodup)
    (hlen : u.length = c.m_used.length) : Inv { c with m_used := u } where
  keysNodup := hc.keysNodup
  idsNodup := hnd
  indexToOrder := fun k e h => (hmem _).mpr (hc.indexToOrder k e h)
  orderToIndex := fun n hn => hc.orderToIndex n ((hmem n).mp hn)
  idsFresh := fun n hn => hc.idsFresh n ((hmem n).mp hn)
  sizeEq := by
    show c.m_cache.length = u.length
    rw [hlen]; exact hc.sizeEq
  sizeLe := hc.sizeLe

theorem Inv.erase {c : ExpiringLruCache K V} (hc : Inv c) {k : K} {e : Entry V}
    (h : mapFind c.m_cache k = some e) :
    Inv { c with m_used := listUnlink c.m_used e.it, m_cache := mapErase c.m_cache k } where
  keysNodup := hc.keysNodup.sublist (mapErase_keys_sublist _ _)
  idsNodup := hc.idsNodup.sublist ((listUnlink_sublist _ _).map Node.id)
  indexToOrder := by
    intro j x hx
    have hx : mapFind (mapErase c.m_cache k) j = some x := hx
    have hjk : j ≠ k := by
      intro hjk
      rw [hjk, mapFind_mapErase_self hc.keysNodup] at hx
      exact Option.noConfusion hx
    rw [mapFind_mapErase_ne hjk] at hx
    refine (mem_listUnlink hc.idsNodup).mpr ⟨hc.indexToOrder j x hx, fun hid => hjk ?_⟩
    have := node_eq_of_id_eq hc.idsNodup (hc.indexToOrder j x hx) (hc.indexToOrder k e h) hid
    exact congrArg Node.key this
  orderToIndex := by
    intro n hn
    obtain ⟨hmem, hid⟩ := (mem_listUnlink hc.idsNodup).mp hn
    obtain ⟨x, hx, hxid⟩ := hc.orderToIndex n hmem
    have hnk : n.key ≠ k := by
      intro hnk
      rw [hnk, h] at hx
      have : e = x := Option.some.inj hx
      exact hid (this ▸ hxid).symm
    exact ⟨x, (mapFind_mapErase_ne hnk).trans hx, hxid⟩
  idsFresh := fun n hn => hc.idsFresh n ((listUnlink_sublist _ _).subset hn)
  sizeEq := by
    show (mapErase c.m_cache k).length = (listUnlink c.m_used e.it).length
    have h1 := mapErase_length h
    have h2 := listUnlink_length (listDeref_of_mem hc.idsNodup (hc.indexToOrder k e h))
    have h3 := hc.sizeEq
    simp only at h2
    omega
  sizeLe := by
    show (mapErase c.m_cache k).length ≤ c.m_capacity
    have h1 := mapErase_length h
    have h3 := hc.sizeLe
    omega

theorem Inv.insert {c : ExpiringLruCache K V} (hc : Inv c) {k : K}
    (h : mapFind c.m_cache k = none) (hroom : c.m_cache.length < c.m_capacity)
    (v : V) (now : Int) :
    Inv { c with
      m_used := Node.mk c.nextNode k :: c.m_used
      nextNode := c.nextNode + 1
      m_cache := mapAssign c.m_cache k { value := v, it := c.nextNode, time := now } } where
  keysNodup := by
    show ((mapAssign c.m_cache k _).map Prod.fst).Nodup
    rw [mapAssign_keys_absent h]
    exact List.Nodup.append hc.keysNodup (List.nodup_singleton k)
      (by simpa using mapFind_eq_none_iff.mp h)
  idsNodup := by
    show ((Node.mk c.nextNode k :: c.m_used).map Node.id).Nodup
    rw [List.map_cons, List.nodup_cons]
    refine ⟨fun hmem => ?_, hc.idsNodup⟩
    obtain ⟨n, hn, hid⟩ := List.mem_map.mp hmem
    have := hc.idsFresh n hn
    simp only at hid
    omega
  indexToOrder := by
    intro j x hx
    have hx : mapFind (mapAssign c.m_cache k _) j = some x := hx
    rw [mapFind_mapAssign] at hx
    by_cases hjk : j = k
    · simp only [hjk, if_true, Option.some.injEq] at hx
      subst hx; subst hjk
      exact List.mem_cons_self _ _
    · simp only [hjk, if_false] at hx
      exact List.mem_cons_of_mem _ (hc.indexToOrder j x hx)
  orderToIndex := by
    intro n hn
    rcases List.mem_cons.mp hn with hn | hn
    · subst hn
      refine ⟨{ value := v, it := c.nextNode, time := now }, ?_, rfl⟩
      show mapFind (mapAssign c.m_cache k _) k = _
      rw [mapFind_mapAssign]; simp
    · obtain ⟨x, hx, hxid⟩ := hc.orderToIndex n hn
      have hnk : n.key ≠ k := by
        intro hnk
        rw [hnk, h] at hx
        exact Option.noConfusion hx
      refine ⟨x, ?_, hxid⟩
      show mapFind (mapAssign c.m_cache k _) n.key = _
      rw [mapFind_mapAssign]
      simp [hnk, hx]
  idsFresh := by
    intro n hn
    show n.id < c.nextNode + 1
    rcases List.mem_cons.mp hn with hn | hn
    · subst hn; simp
    · exact Nat.lt_succ_of_lt (hc.idsFresh n hn)
  sizeEq := by
    show (mapAssign c.m_cache k _).length = (Node.mk c.nextNode k :: c.m_used).length
    rw [← List.length_map (mapAssign c.m_cache k _) Prod.fst, mapAssign_keys_absent h]
    simp [hc.sizeEq]
  sizeLe := by
    show (mapAssign c.m_cache k _).length ≤ c.m_capacity
    rw [← List.length_map (mapAssign c.m_cache k _) Prod.fst, mapAssign_keys_absent h]
    simp
    omega

/-! ## What each member function computes on a state satisfying the invariant -/

theorem touch_eq {c : ExpiringLruCache K V} (hc : Inv c) {k : K} {e : Entry V}
    (h : mapFind c.m_cache k = some e) (now : Int) :
    touch c k e now = some ({ e with time := now },
      { c with
        m_used := Node.mk e.it k :: listUnlink c.m_used e.it
        m_cache := mapModify c.m_cache k (fun x => { x with it := e.it, time := now }) }) := by
  have hd : listDeref c.m_used e.it = some (Node.mk e.it k) :=
    listDeref_of_mem hc.idsNodup (hc.indexToOrder k e h)
  simp [touch, listSpliceFront, hd, listBegin]

theorem Inv.touch {c : ExpiringLruCache K V} (hc : Inv c) {k : K} {e : Entry V}
    (h : mapFind c.m_cache k = some e) (now : Int) :
    Inv { c with
      m_used := Node.mk e.it k :: listUnlink c.m_used e.it
      m_cache := mapModify c.m_cache k (fun x => { x with it := e.it, time := now }) } := by
  have hmem := hc.indexToOrder k e h
  have hused : Inv { c with m_used := Node.mk e.it k :: listUnlink c.m_used e.it } := by
    refine hc.used_congr ?_ ?_ ?_
    · intro n
      rw [List.mem_cons, mem_listUnlink hc.idsNodup]
      constructor
      · rintro (hn | hn)
        · exact hn ▸ hmem
        · exact hn.1
      · intro hn
        by_cases hid : n.id = e.it
        · exact Or.inl (node_eq_of_id_eq hc.idsNodup hn hmem hid)
        · exact Or.inr ⟨hn, hid⟩
    · rw [List.map_cons, List.nodup_cons]
      refine ⟨fun hin => ?_, hc.idsNodup.sublist ((listUnlink_sublist _ _).map Node.id)⟩
      obtain ⟨n, hn, hid⟩ := List.mem_map.mp hin
      exact ((mem_listUnlink hc.idsNodup).mp hn).2 hid
    · have := listUnlink_length (listDeref_of_mem hc.idsNodup hmem)
      simp only [List.length_cons]
      exact this
  refine hused.map_congr (mapModify_keys _ _ _) ?_
  intro j
  show Option.map Entry.it (mapFind (mapModify c.m_cache k _) j) = _
  rw [mapFind_mapModify]
  by_cases hjk : j = k
  · subst hjk
    simp [h]
  · simp [hjk]

theorem find_absent {c : ExpiringLruCache K V} {k : K} (h : mapFind c.m_cache k = none)
    (now : Int) : find c k now = some (none, c) := by
  simp [find, h]

theorem find_expired {c : ExpiringLruCache K V} (hc : Inv c) {k : K} {e : Entry V}
    (h : mapFind c.m_cache k = some e) {now : Int} (hx : isExpired c e now = true) :
    find c k now = some (none,
      { c with m_used := listUnlink c.m_used e.it, m_cache := mapErase c.m_cache k }) := by
  have hd : listDeref c.m_used e.it = some (Node.mk e.it k) :=
    listDeref_of_mem hc.idsNodup (hc.indexToOrder k e h)
  simp [find, h, hx, listErase, hd]

theorem find_fresh {c : ExpiringLruCache K V} (hc : Inv c) {k : K} {e : Entry V}
    (h : mapFind c.m_cache k = some e) {now : Int} (hx : isExpired c e now = false) :
    find c k now = some (some (k, { e with time := now }),
      { c with
        m_used := Node.mk e.it k :: listUnlink c.m_used e.it
        m_cache := mapModify c.m_cache k (fun x => { x with it := e.it, time := now }) }) := by
  simp [find, h, hx, touch_eq hc h now]

theorem emplace_present {c : ExpiringLruCache K V} (hc : Inv c) {k : K} {e : Entry V}
    (h : mapFind c.m_cache k = some e) (v : V) (now : Int) :
    emplace c k v now = some
      { c with
        m_used := Node.mk e.it k :: listUnlink c.m_used e.it
        m_cache := mapAssign
          (mapModify c.m_cache k (fun x => { x with it := e.it, time := now })) k
          { value := v, it := e.it, time := now } } := by
  simp [emplace, h, touch_eq hc h now, listBegin]

theorem emplace_absent_room {c : ExpiringLruCache K V} {k : K}
    (h : mapFind c.m_cache k = none) (hroom : c.m_cache.length ≠ c.m_capacity)
    (v : V) (now : Int) :
    emplace c k v now = some
      { c with
        m_used := Node.mk c.nextNode k :: c.m_used
        nextNode := c.nextNode + 1
        m_cache := mapAssign c.m_cache k { value := v, it := c.nextNode, time := now } } := by
  simp [emplace, h, hroom, listBegin]

theorem emplace_absent_full {c : ExpiringLruCache K V} {k : K}
    (h : mapFind c.m_cache k = none) (hfull : c.m_cache.length = c.m_capacity)
    {front : List (Node K)} {n : Node K} (hused : c.m_used = front ++ [n])
    (v : V) (now : Int) :
    emplace c k v now = some
      { c with
        m_used := Node.mk c.nextNode k :: front
        nextNode := c.nextNode + 1
        m_cache := mapAssign (mapErase c.m_cache n.key) k
          { value := v, it := c.nextNode, time := now } } := by
  have hback : listBack c.m_used = some n.key := by simp [listBack, hused]
  have hpop : listPopBack c.m_used = some front := by
    rw [hused]
    cases front with
    | nil => simp [listPopBack]
    | cons a rest =>
      have := @List.dropLast_concat _ (a :: rest) n
      simpa [listPopBack] using this
  simp [emplace, h, hfull, hback, hpop, listBegin]

theorem emplace_absent_empty_full {c : ExpiringLruCache K V} {k : K}
    (h : mapFind c.m_cache k = none) (hfull : c.m_cache.length = c.m_capacity)
    (hused : c.m_used = []) (v : V) (now : Int) : emplace c k v now = none := by
  simp [emplace, h, hfull, hused, listBack, listPopBack]

theorem Inv.find {c c1 : ExpiringLruCache K V} (hc : Inv c) {k : K} {now : Int}
    {r : Option (K × Entry V)} (h : find c k now = some (r, c1)) : Inv c1 := by
  cases hf : mapFind c.m_cache k with
  | none =>
    rw [find_absent hf] at h
    simp only [Option.some.injEq, Prod.mk.injEq] at h
    exact h.2 ▸ hc
  | some e =>
    cases hx : isExpired c e now with
    | true =>
      rw [find_expired hc hf hx] at h
      simp only [Option.some.injEq, Prod.mk.injEq] at h
      exact h.2 ▸ hc.erase hf
    | false =>
      rw [find_fresh hc hf hx] at h
      simp only [Option.some.injEq, Prod.mk.injEq] at h
      exact h.2 ▸ hc.touch hf now

theorem find_defined {c : ExpiringLruCache K V} (hc : Inv c) (k : K) (now : Int) :
    ∃ r c1, find c k now = some (r, c1) := by
  cases hf : mapFind c.m_cache k with
  | none => exact ⟨_, _, find_absent hf now⟩
  | some e =>
    cases hx : isExpired c e now with
    | true => exact ⟨_, _, find_expired hc hf hx⟩
    | false => exact ⟨_, _, find_fresh hc hf hx⟩

theorem at_snd (c : ExpiringLruCache K V) (k : K) (now : Int) :
    (at_ c k now).map Prod.snd = (find c k now).map Prod.snd := by
  unfold at_
  cases find c k now with
  | none => rfl
  | some p =>
    obtain ⟨r, c1⟩ := p
    cases r with
    | none => rfl
    | some x => rfl

theorem Inv.of_emplace_present {c : ExpiringLruCache K V} (hc : Inv c) {k : K} {e : Entry V}
    (h : mapFind c.m_cache k = some e) (v : V) (now : Int) :
    Inv { c with
      m_used := Node.mk e.it k :: listUnlink c.m_used e.it
      m_cache := mapAssign
        (mapModify c.m_cache k (fun x => { x with it := e.it, time := now })) k
        { value := v, it := e.it, time := now } } := by
  have hfind : mapFind (mapModify c.m_cache k (fun x => { x with it := e.it, time := now })) k
      = some { e with time := now } := by
    rw [mapFind_mapModify]; simp [h]
  refine (hc.touch h now).map_congr (mapAssign_keys_present hfind) ?_
  intro j
  show Option.map Entry.it (mapFind (mapAssign _ k _) j) = Option.map Entry.it (mapFind _ j)
  rw [mapFind_mapAssign]
  by_cases hjk : j = k
  · subst hjk
    simp [hfind]
  · simp [hjk]

theorem Inv.of_emplace_full {c : ExpiringLruCache K V} (hc : Inv c) {k : K}
    (h : mapFind c.m_cache k = none) {front : List (Node K)} {n : Node K}
    (hused : c.m_used = front ++ [n]) (v : V) (now : Int) :
    Inv { c with
      m_used := Node.mk c.nextNode k :: front
      nextNode := c.nextNode + 1
      m_cache := mapAssign (mapErase c.m_cache n.key) k
        { value := v, it := c.nextNode, time := now } } := by
  have hn : n ∈ c.m_used := by rw [hused]; simp
  obtain ⟨e, he, heid⟩ := hc.orderToIndex n hn
  have hfront : listUnlink c.m_used e.it = front := by
    rw [heid, hused]
    exact listUnlink_append_last (hused ▸ hc.idsNodup)
  have hnk : k ≠ n.key := by
    intro hkn
    rw [hkn, he] at h
    exact Option.noConfusion h
  have h1 := hc.erase he
  rw [hfront] at h1
  have hlen := mapErase_length he
  have hle := hc.sizeLe
  exact h1.insert (k := k) ((mapFind_mapErase_ne hnk).trans h)
    (by show (mapErase c.m_cache n.key).length < c.m_capacity; omega) v now

theorem Inv.emplace {c c1 : ExpiringLruCache K V} (hc : Inv c) {k : K} {v : V} {now : Int}
    (h : emplace c k v now = some c1) : Inv c1 := by
  cases hf : mapFind c.m_cache k with
  | some e =>
    rw [emplace_present hc hf v now] at h
    exact Option.some.inj h ▸ hc.of_emplace_present hf v now
  | none =>
    by_cases hfull : c.m_cache.length = c.m_capacity
    · rcases List.eq_nil_or_concat c.m_used with hnil | ⟨front, n, hused⟩
      <;> try rw [List.concat_eq_append] at hused
      · rw [emplace_absent_empty_full hf hfull hnil] at h
        exact Option.noConfusion h
      · rw [emplace_absent_full hf hfull hused v now] at h
        exact Option.some.inj h ▸ hc.of_emplace_full hf hused v now
    · rw [emplace_absent_room hf hfull v now] at h
      have hlt : c.m_cache.length < c.m_capacity := lt_of_le_of_ne hc.sizeLe hfull
      exact Option.some.inj h ▸ hc.insert hf hlt v now

theorem emplace_defined {c : ExpiringLruCache K V} (hc : Inv c) (hcap : 1 ≤ c.m_capacity)
    (k : K) (v : V) (now : Int) : ∃ c1, emplace c k v now = some c1 := by
  cases hf : mapFind c.m_cache k with
  | some e => exact ⟨_, emplace_present hc hf v now⟩
  | none =>
    by_cases hfull : c.m_cache.length = c.m_capacity
    · rcases List.eq_nil_or_concat c.m_used with hnil | ⟨front, n, hused⟩
      <;> try rw [List.concat_eq_append] at hused
      · have := hc.sizeEq
        rw [hnil, hfull] at this
        simp at this
        omega
      · exact ⟨_, emplace_absent_full hf hfull hused v now⟩
    · exact ⟨_, emplace_absent_room hf hfull v now⟩

theorem Inv.step {c c1 : ExpiringLruCache K V} (hc : Inv c) {op : Op K V}
    (h : step c op = some c1) : Inv c1 := by
  cases op with
  | find k now =>
    simp only [ExpiringLruCache.step, Option.map_eq_some'] at h
    obtain ⟨⟨r, c2⟩, hf, rfl⟩ := h
    exact hc.find hf
  | at_ k now =>
    simp only [ExpiringLruCache.step, at_snd, Option.map_eq_some'] at h
    obtain ⟨⟨r, c2⟩, hf, rfl⟩ := h
    exact hc.find hf
  | emplace k v now => exact hc.emplace h
  | size =>
    simp only [ExpiringLruCache.step, Option.some.injEq] at h
    exact h ▸ hc

theorem Reachable.inv {capacity ttl : Nat} {c : ExpiringLruCache K V}
    (h : Reachable capacity ttl c) : Inv c := by
  induction h with
  | init => exact Inv.new capacity ttl
  | step op _ hstep ih => exact ih.step hstep

theorem find_params {c c1 : ExpiringLruCache K V} {k : K} {now : Int}
    {r : Option (K × Entry V)} (h : find c k now = some (r, c1)) :
    c1.m_capacity = c.m_capacity ∧ c1.m_ttl = c.m_ttl := by
  unfold find at h
  cases hf : mapFind c.m_cache k with
  | none =>
    simp only [hf, Option.some.injEq, Prod.mk.injEq] at h
    rw [← h.2]; exact ⟨rfl, rfl⟩
  | some e =>
    simp only [hf] at h
    split at h
    · cases hd : listErase c.m_used e.it with
      | none => simp [hd] at h
      | some u =>
        simp only [hd, Option.some.injEq, Prod.mk.injEq] at h
        rw [← h.2]; exact ⟨rfl, rfl⟩
    · unfold touch at h
      cases hd : listSpliceFront c.m_used e.it with
      | none => simp [hd] at h
      | some u =>
        simp only [hd, Option.some.injEq, Prod.mk.injEq] at h
        rw [← h.2]; exact ⟨rfl, rfl⟩

theorem emplace_params {c c1 : ExpiringLruCache K V} {k : K} {v : V} {now : Int}
    (h : emplace c k v now = some c1) :
    c1.m_capacity = c.m_capacity ∧ c1.m_ttl = c.m_ttl := by
  unfold emplace at h
  cases hf : mapFind c.m_cache k with
  | some e =>
    simp only [hf] at h
    unfold touch at h
    cases hd : listSpliceFront c.m_used e.it with
    | none => simp [hd] at h
    | some u =>
      simp only [hd, Option.some.injEq] at h
      rw [← h]; exact ⟨rfl, rfl⟩
  | none =>
    simp only [hf] at h
    by_cases hfull : c.m_cache.length = c.m_capacity
    · simp only [hfull, if_true] at h
      cases hb : listBack c.m_used with
      | none => simp [hb] at h
      | some last =>
        cases hp : listPopBack c.m_used with
        | none => simp [hb, hp] at h
        | some u =>
          simp only [hb, hp, Option.some.injEq] at h
          rw [← h]; exact ⟨rfl, rfl⟩
    · simp only [hfull, if_false, Option.some.injEq] at h
      rw [← h]; exact ⟨rfl, rfl⟩

theorem step_params {c c1 : ExpiringLruCache K V} {op : Op K V} (h : step c op = some c1) :
    c1.m_capacity = c.m_capacity ∧ c1.m_ttl = c.m_ttl := by
  cases op with
  | find k now =>
    simp only [ExpiringLruCache.step, Option.map_eq_some'] at h
    obtain ⟨⟨r, c2⟩, hf, rfl⟩ := h
    exact find_params hf
  | at_ k now =>
    simp only [ExpiringLruCache.step, at_snd, Option.map_eq_some'] at h
    obtain ⟨⟨r, c2⟩, hf, rfl⟩ := h
    exact find_params hf
  | emplace k v now => exact emplace_params h
  | size =>
    simp only [ExpiringLruCache.step, Option.some.injEq] at h
    rw [← h]; exact ⟨rfl, rfl⟩

theorem Reachable.params {capacity ttl : Nat} {c : ExpiringLruCache K V}
    (h : Reachable capacity ttl c) : c.m_capacity = capacity ∧ c.m_ttl = (ttl : Int) := by
  induction h with
  | init => exact ⟨rfl, rfl⟩
  | step op _ hstep ih =>
    have := step_params hstep
    exact ⟨this.1.trans ih.1, this.2.trans ih.2⟩

theorem step_defined {c : ExpiringLruCache K V} (hc : Inv c) (hcap : 1 ≤ c.m_capacity)
    (op : Op K V) : ∃ c1, step c op = some c1 := by
  cases op with
  | find k now =>
    obtain ⟨r, c1, h⟩ := find_defined hc k now
    exact ⟨c1, by simp [ExpiringLruCache.step, h]⟩
  | at_ k now =>
    obtain ⟨r, c1, h⟩ := find_defined hc k now
    exact ⟨c1, by simp [ExpiringLruCache.step, at_snd, h]⟩
  | emplace k v now => exact emplace_defined hc hcap k v now
  | size => exact ⟨c, rfl⟩

theorem Inv.mem_orderKeys_iff {c : ExpiringLruCache K V} (hc : Inv c) (k : K) :
    k ∈ orderKeys c ↔ k ∈ indexKeys c := by
  unfold orderKeys indexKeys
  rw [← mapFind_isSome_iff]
  constructor
  · intro h
    obtain ⟨n, hn, hkey⟩ := List.mem_map.mp h
    obtain ⟨e, he, _⟩ := hc.orderToIndex n hn
    rw [← hkey, he]; rfl
  · intro h
    obtain ⟨e, he⟩ := Option.isSome_iff_exists.mp h
    exact List.mem_map.mpr ⟨_, hc.indexToOrder k e he, rfl⟩

theorem Inv.orderKeys_nodup {c : ExpiringLruCache K V} (hc : Inv c) : (orderKeys c).Nodup := by
  unfold orderKeys
  refine List.Nodup.map_on ?_ (List.Nodup.of_map Node.id hc.idsNodup)
  intro a ha b hb hab
  obtain ⟨ea, hea, haid⟩ := hc.orderToIndex a ha
  obtain ⟨eb, heb, hbid⟩ := hc.orderToIndex b hb
  rw [hab, heb] at hea
  have : eb = ea := Option.some.inj hea
  exact node_eq_of_id_eq hc.idsNodup ha hb (by rw [← haid, ← hbid, this])

theorem typicalCache_reachable : Reachable 3 1 typicalCache :=
  Reachable.step (c := { m_cache := [(1, ⟨10, 1, 0⟩), (2, ⟨20, 2, 0⟩)],
                         m_used := [⟨2, 2⟩, ⟨1, 1⟩], m_capacity := 3, m_ttl := 1, nextNode := 3 })
    (Op.emplace 3 30 0)
    (Reachable.step (c := { m_cache := [(1, ⟨10, 1, 0⟩)], m_used := [⟨1, 1⟩],
                            m_capacity := 3, m_ttl := 1, nextNode := 2 })
      (Op.emplace 2 20 0)
      (Reachable.step (Op.emplace 1 10 0) Reachable.init rfl) rfl) rfl

/-! ## The expiry test -/

theorem durationCastSeconds_of_nonneg {d : Int} (h : 0 ≤ d) :
    durationCastSeconds d = d / 1000000000 :=
  Int.tdiv_eq_ediv h (by decide)

theorem durationCastSeconds_of_nonpos {d : Int} (h : d ≤ 0) : durationCastSeconds d ≤ 0 := by
  have h1 : durationCastSeconds d = -(Int.tdiv (-d) ticksPerSecond) := by
    unfold durationCastSeconds
    rw [Int.neg_tdiv, neg_neg]
  have h2 : 0 ≤ Int.tdiv (-d) ticksPerSecond :=
    Int.tdiv_nonneg (by omega) (by decide)
  omega

theorem durationCastSeconds_gt_iff {d t : Int} (ht : 0 ≤ t) :
    durationCastSeconds d > t ↔ (t + 1) * ticksPerSecond ≤ d := by
  unfold ticksPerSecond
  by_cases hd : 0 ≤ d
  · rw [durationCastSeconds_of_nonneg hd]
    omega
  · have := durationCastSeconds_of_nonpos (d := d) (by omega)
    omega

omit [DecidableEq K] in
theorem isExpired_iff {c : ExpiringLruCache K V} (httl : 0 ≤ c.m_ttl) (e : Entry V) (now : Int) :
    isExpired c e now = true ↔ (c.m_ttl + 1) * ticksPerSecond ≤ now - e.time := by
  unfold isExpired
  rw [decide_eq_true_iff]
  exact durationCastSeconds_gt_iff httl

omit [DecidableEq K] in
theorem orderKeys_touch_head {c : ExpiringLruCache K V} {k : K} {it : Nat}
    {m : List (K × Entry V)} :
    (orderKeys { c with m_used := Node.mk it k :: listUnlink c.m_used it, m_cache := m }).head?
      = some k := rfl

/-! ## Insertion -/

theorem mapAssign_length_absent {m : List (K × Entry V)} {k : K} (e : Entry V)
    (h : mapFind m k = none) : (mapAssign m k e).length = m.length + 1 := by
  rw [← List.length_map (mapAssign m k e) Prod.fst, mapAssign_keys_absent h]
  simp

theorem emplace_existing_spec {c : ExpiringLruCache K V} (hc : Inv c) {k : K} {e : Entry V}
    (hk : mapFind c.m_cache k = some e) (v : V) (now : Int) :
    ∃ c1, emplace c k v now = some c1 ∧
      mapFind c1.m_cache k = some { value := v, it := e.it, time := now } ∧
      orderKeys c1 = k :: (orderKeys c).erase k ∧
      indexKeys c1 = indexKeys c ∧
      (∀ j, j ≠ k → mapFind c1.m_cache j = mapFind c.m_cache j) := by
  have hfind : mapFind (mapModify c.m_cache k (fun x => { x with it := e.it, time := now })) k
      = some { e with time := now } := by
    rw [mapFind_mapModify]; simp [hk]
  refine ⟨_, emplace_present hc hk v now, ?_, ?_, ?_, ?_⟩
  · show mapFind (mapAssign _ k _) k = _
    rw [mapFind_mapAssign]; simp
  · show Node.key (Node.mk e.it k) :: (listUnlink c.m_used e.it).map Node.key = _
    have := listUnlink_keys hc.orderKeys_nodup (hc.indexToOrder k e hk) hc.idsNodup
    simp only at this
    rw [this]; rfl
  · show (mapAssign _ k _).map Prod.fst = c.m_cache.map Prod.fst
    rw [mapAssign_keys_present hfind, mapModify_keys]
  · intro j hj
    show mapFind (mapAssign _ k _) j = _
    rw [mapFind_mapAssign, mapFind_mapModify]
    simp [hj]

theorem emplace_full_spec {c : ExpiringLruCache K V} (hc : Inv c) (hcap : 1 ≤ c.m_capacity)
    {k : K} (hk : mapFind c.m_cache k = none) (hfull : c.m_cache.length = c.m_capacity)
    (v : V) (now : Int) :
    ∃ c1 last, emplace c k v now = some c1 ∧
      (orderKeys c).getLast? = some last ∧
      orderKeys c1 = k :: (orderKeys c).dropLast ∧
      (mapFind c.m_cache last).isSome ∧
      mapFind c1.m_cache last = none ∧
      (∀ j, j ≠ last → j ≠ k → mapFind c1.m_cache j = mapFind c.m_cache j) ∧
      mapFind c1.m_cache k = some { value := v, it := c.nextNode, time := now } ∧
      size c1 = size c := by
  rcases List.eq_nil_or_concat c.m_used with hnil | ⟨front, n, hused⟩
  · have := hc.sizeEq
    rw [hnil, hfull] at this
    simp at this
    omega
  · rw [List.concat_eq_append] at hused
    have hn : n ∈ c.m_used := by rw [hused]; simp
    obtain ⟨e, he, _⟩ := hc.orderToIndex n hn
    have hnk : n.key ≠ k := by
      intro h
      rw [h, hk] at he
      exact Option.noConfusion he
    have hkeys : orderKeys c = front.map Node.key ++ [n.key] := by
      unfold orderKeys; rw [hused]; simp
    have hgone : mapFind (mapErase c.m_cache n.key) k = none :=
      (mapFind_mapErase_ne (Ne.symm hnk)).trans hk
    refine ⟨_, n.key, emplace_absent_full hk hfull hused v now, ?_, ?_, ?_, ?_, ?_, ?_, ?_⟩
    · rw [hkeys]; simp
    · rw [hkeys, List.dropLast_concat]; rfl
    · rw [he]; rfl
    · show mapFind (mapAssign _ k _) n.key = none
      rw [mapFind_mapAssign, if_neg hnk]
      exact mapFind_mapErase_self hc.keysNodup
    · intro j hj1 hj2
      show mapFind (mapAssign _ k _) j = _
      rw [mapFind_mapAssign, if_neg hj2]
      exact mapFind_mapErase_ne hj1
    · show mapFind (mapAssign _ k _) k = _
      rw [mapFind_mapAssign]; simp
    · show (mapAssign _ k _).length = c.m_cache.length
      rw [mapAssign_length_absent _ hgone]
      exact mapErase_length he

theorem emplaceAll_append (c : ExpiringLruCache K V) (a b : List (K × V × Int)) :
    emplaceAll c (a ++ b) = (emplaceAll c a).bind (fun c1 => emplaceAll c1 b) := by
  induction a generalizing c with
  | nil => rfl
  | cons p rest ih =>
    obtain ⟨k, v, now⟩ := p
    simp only [List.cons_append, emplaceAll]
    cases emplace c k v now with
    | none => rfl
    | some c1 => exact ih c1

theorem emplaceAll_with_room (l : List (K × V × Int)) :
    ∀ c : ExpiringLruCache K V, Inv c → (l.map Prod.fst).Nodup →
      (∀ p ∈ l, mapFind c.m_cache p.1 = none) →
      c.m_cache.length + l.length ≤ c.m_capacity →
      ∃ c1, emplaceAll c l = some c1 ∧ Inv c1 ∧ c1.m_capacity = c.m_capacity ∧
        orderKeys c1 = (l.map Prod.fst).reverse ++ orderKeys c ∧
        c1.m_cache.length = c.m_cache.length + l.length ∧
        (∀ p ∈ l, (mapFind c1.m_cache p.1).map Entry.value = some p.2.1) ∧
        (∀ j, j ∉ l.map Prod.fst → mapFind c1.m_cache j = mapFind c.m_cache j) := by
  induction l with
  | nil =>
    intro c hc _ _ _
    exact ⟨c, rfl, hc, rfl, by simp, by simp, by simp, fun _ _ => rfl⟩
  | cons p rest ih =>
    obtain ⟨k, v, now⟩ := p
    intro c hc hnd habs hlen
    simp only [List.map_cons, List.nodup_cons] at hnd
    simp only [List.length_cons] at hlen
    have hk : mapFind c.m_cache k = none := habs (k, v, now) (List.mem_cons_self _ _)
    have hroom : c.m_cache.length < c.m_capacity := by omega
    have hstep := emplace_absent_room hk (Nat.ne_of_lt hroom) v now
    have hinv := hc.insert hk hroom v now
    have hlen1 := mapAssign_length_absent { value := v, it := c.nextNode, time := now } hk
    obtain ⟨c1, h1, h2, h3, h4, h5, h6, h7⟩ := ih _ hinv hnd.2
      (by
        intro p hp
        show mapFind (mapAssign c.m_cache k _) p.1 = none
        have hpk : p.1 ≠ k := fun h => hnd.1 (h ▸ List.mem_map_of_mem Prod.fst hp)
        rw [mapFind_mapAssign, if_neg hpk]
        exact habs p (List.mem_cons_of_mem _ hp))
      (by
        show (mapAssign c.m_cache k _).length + rest.length ≤ c.m_capacity
        omega)
    refine ⟨c1, ?_, h2, h3, ?_, ?_, ?_, ?_⟩
    · simp only [emplaceAll, hstep]
      exact h1
    · rw [h4]
      show _ ++ k :: orderKeys c = _
      simp
    · rw [h5]
      show (mapAssign c.m_cache k _).length + rest.length = c.m_cache.length + (rest.length + 1)
      omega
    · intro p hp
      rcases List.mem_cons.mp hp with hp | hp
      · subst hp
        rw [h7 k hnd.1]
        show Option.map Entry.value (mapFind (mapAssign c.m_cache k _) k) = _
        rw [mapFind_mapAssign]
        simp
      · exact h6 p hp
    · intro j hj
      simp only [List.map_cons, List.mem_cons, not_or] at hj
      rw [h7 j hj.2]
      show mapFind (mapAssign c.m_cache k _) j = _
      rw [mapFind_mapAssign, if_neg hj.1]

/-! ## Lookup: frame and removal -/

theorem filter_ne_erase (l : List K) (k : K) :
    (l.erase k).filter (fun j => decide (j ≠ k)) = l.filter (fun j => decide (j ≠ k)) := by
  induction l with
  | nil => rfl
  | cons a rest ih =>
    by_cases ha : a = k
    · subst ha
      simp
    · have ha1 : (a == k) = false := by simpa using ha
      rw [List.erase_cons, ha1]
      simp only [Bool.false_eq_true, if_false, List.filter_cons, ih]

theorem find_frame {c : ExpiringLruCache K V} (hc : Inv c) (k : K) (now : Int) :
    ∃ r c1, find c k now = some (r, c1) ∧
      (∀ j, j ≠ k → mapFind c1.m_cache j = mapFind c.m_cache j) ∧
      (orderKeys c1).filter (fun j => decide (j ≠ k))
        = (orderKeys c).filter (fun j => decide (j ≠ k)) := by
  cases hf : mapFind c.m_cache k with
  | none => exact ⟨_, _, find_absent hf now, fun _ _ => rfl, rfl⟩
  | some e =>
    have hkeys : (listUnlink c.m_used e.it).map Node.key = (orderKeys c).erase k :=
      listUnlink_keys hc.orderKeys_nodup (hc.indexToOrder k e hf) hc.idsNodup
    cases hx : isExpired c e now with
    | true =>
      refine ⟨_, _, find_expired hc hf hx, fun j hj => mapFind_mapErase_ne hj, ?_⟩
      show ((listUnlink c.m_used e.it).map Node.key).filter _ = _
      rw [hkeys, filter_ne_erase]
    | false =>
      refine ⟨_, _, find_fresh hc hf hx, fun j hj => ?_, ?_⟩
      · show mapFind (mapModify c.m_cache k _) j = _
        rw [mapFind_mapModify, if_neg hj]
      · show (k :: (listUnlink c.m_used e.it).map Node.key).filter _ = _
        rw [hkeys, List.filter_cons]
        simp only [ne_eq, not_true_eq_false, decide_False, Bool.false_eq_true, if_false]
        exact filter_ne_erase _ _

theorem find_removes_only_expired {c c1 : ExpiringLruCache K V} (hc : Inv c) {k1 : K}
    {now : Int} {r : Option (K × Entry V)} (h : find c k1 now = some (r, c1)) {k : K}
    (hin : k ∈ indexKeys c) (hout : k ∉ indexKeys c1) :
    k1 = k ∧ ∃ e, mapFind c.m_cache k = some e ∧ isExpired c e now = true := by
  cases hf : mapFind c.m_cache k1 with
  | none =>
    rw [find_absent hf] at h
    simp only [Option.some.injEq, Prod.mk.injEq] at h
    exact absurd (h.2 ▸ hin) hout
  | some e =>
    cases hx : isExpired c e now with
    | true =>
      rw [find_expired hc hf hx] at h
      simp only [Option.some.injEq, Prod.mk.injEq] at h
      by_cases hk : k = k1
      · subst hk
        exact ⟨rfl, e, hf, hx⟩
      · exfalso
        apply hout
        rw [← h.2]
        show k ∈ (mapErase c.m_cache k1).map Prod.fst
        rw [← mapFind_isSome_iff, mapFind_mapErase_ne hk]
        exact mapFind_isSome_iff.mpr hin
    | false =>
      rw [find_fresh hc hf hx] at h
      simp only [Option.some.injEq, Prod.mk.injEq] at h
      exfalso
      apply hout
      rw [← h.2]
      show k ∈ (mapModify c.m_cache k1 _).map Prod.fst
      rw [mapModify_keys]
      exact hin

theorem emplace_removes_only_tail {c c1 : ExpiringLruCache K V} (hc : Inv c)
    (hcap : 1 ≤ c.m_capacity) {k1 : K} {v : V} {now : Int}
    (h : emplace c k1 v now = some c1) {k : K}
    (hin : k ∈ indexKeys c) (hout : k ∉ indexKeys c1) :
    k1 ≠ k ∧ mapFind c.m_cache k1 = none ∧ c.m_cache.length = c.m_capacity ∧
      (orderKeys c).getLast? = some k := by
  have hsome : (mapFind c.m_cache k).isSome := mapFind_isSome_iff.mpr hin
  have hnone : mapFind c1.m_cache k = none := mapFind_eq_none_iff.mpr hout
  cases hf : mapFind c.m_cache k1 with
  | some e =>
    obtain ⟨c2, h1, _, _, h4, _⟩ := emplace_existing_spec hc hf v now
    rw [h1] at h
    have : c2 = c1 := Option.some.inj h
    subst this
    exact absurd (h4 ▸ hin) hout
  | none =>
    have hk : k1 ≠ k := by
      intro hk
      rw [hk] at hf
      rw [hf] at hsome
      exact Bool.noConfusion hsome
    by_cases hfull : c.m_cache.length = c.m_capacity
    · obtain ⟨c2, last, h1, h2, _, _, _, h6, _, _⟩ := emplace_full_spec hc hcap hf hfull v now
      rw [h1] at h
      have : c2 = c1 := Option.some.inj h
      subst this
      refine ⟨hk, rfl, hfull, ?_⟩
      by_cases hl : k = last
      · rw [hl]; exact h2
      · rw [h6 k hl (Ne.symm hk)] at hnone
        rw [hnone] at hsome
        exact Bool.noConfusion hsome
    · rw [emplace_absent_room hf hfull v now] at h
      have h1 := Option.some.inj h
      rw [← h1] at hnone
      have : mapFind (mapAssign c.m_cache k1 { value := v, it := c.nextNode, time := now }) k
          = none := hnone
      rw [mapFind_mapAssign, if_neg (Ne.symm hk)] at this
      rw [this] at hsome
      exact Bool.noConfusion hsome

/-! ## Repeated lookups -/

omit [DecidableEq K] in
theorem isExpired_false_of_age_le {c : ExpiringLruCache K V} (httl : 0 ≤ c.m_ttl)
    {e : Entry V} {now : Int} (hage : now - e.time ≤ c.m_ttl * ticksPerSecond) :
    isExpired c e now = false := by
  cases hx : isExpired c e now with
  | false => rfl
  | true =>
    have h1 := (isExpired_iff httl e now).mp hx
    unfold ticksPerSecond at h1 hage
    omega

theorem emplace_result {c c1 : ExpiringLruCache K V} (hc : Inv c) {k : K} {v : V} {now : Int}
    (h : emplace c k v now = some c1) :
    ∃ it, mapFind c1.m_cache k = some { value := v, it := it, time := now } := by
  cases hf : mapFind c.m_cache k with
  | some e =>
    rw [emplace_present hc hf v now] at h
    refine ⟨e.it, ?_⟩
    rw [← Option.some.inj h]
    show mapFind (mapAssign _ k _) k = _
    rw [mapFind_mapAssign]; simp
  | none =>
    by_cases hfull : c.m_cache.length = c.m_capacity
    · rcases List.eq_nil_or_concat c.m_used with hnil | ⟨front, n, hused⟩
      · rw [emplace_absent_empty_full hf hfull hnil] at h
        exact Option.noConfusion h
      · rw [List.concat_eq_append] at hused
        rw [emplace_absent_full hf hfull hused v now] at h
        refine ⟨c.nextNode, ?_⟩
        rw [← Option.some.inj h]
        show mapFind (mapAssign _ k _) k = _
        rw [mapFind_mapAssign]; simp
    · rw [emplace_absent_room hf hfull v now] at h
      refine ⟨c.nextNode, ?_⟩
      rw [← Option.some.inj h]
      show mapFind (mapAssign _ k _) k = _
      rw [mapFind_mapAssign]; simp

theorem findAll_within_ttl (ts : List Int) :
    ∀ (c : ExpiringLruCache K V) (k : K) (e : Entry V), Inv c → 0 ≤ c.m_ttl →
      mapFind c.m_cache k = some e →
      List.Chain (fun a b : Int => b - a ≤ c.m_ttl * ticksPerSecond) e.time ts →
      ∃ rs c2, findAll c k ts = some (rs, c2) ∧ rs.length = ts.length ∧
        ∀ r ∈ rs, r.map (fun x => x.2.value) = some e.value := by
  induction ts with
  | nil =>
    intro c k e _ _ _ _
    exact ⟨[], c, rfl, rfl, by simp⟩
  | cons now rest ih =>
    intro c k e hc httl hk hchain
    rw [List.chain_cons] at hchain
    have hx := isExpired_false_of_age_le httl hchain.1
    have hfind := find_fresh hc hk hx
    have hk1 : mapFind (mapModify c.m_cache k
        (fun x => { x with it := e.it, time := now })) k = some { e with time := now } := by
      rw [mapFind_mapModify]; simp [hk]
    obtain ⟨rs, c2, h1, h2, h3⟩ := ih _ k { e with time := now } (hc.touch hk now) httl hk1
      hchain.2
    refine ⟨some (k, { e with time := now }) :: rs, c2, ?_, by simp [h2], ?_⟩
    · simp only [findAll, hfind, h1]
    · intro r hr
      rcases List.mem_cons.mp hr with hr | hr
      · subst hr; rfl
      · exact h3 r hr

/-! ## Time stamps under a monotonic clock -/

theorem MonoReachable.reachable {capacity ttl : Nat} {t : Int} {c : ExpiringLruCache K V}
    (h : MonoReachable capacity ttl t c) : Reachable capacity ttl c := by
  induction h with
  | init t0 => exact Reachable.init
  | step op _ _ hstep ih => exact Reachable.step op ih hstep

theorem stagedCache_monoReachable : MonoReachable 3 1 9 stagedCache :=
  MonoReachable.step (t := 5)
    (c := { m_cache := [(1, ⟨10, 1, 0⟩), (2, ⟨20, 2, 5⟩)],
            m_used := [⟨2, 2⟩, ⟨1, 1⟩], m_capacity := 3, m_ttl := 1, nextNode := 3 })
    (Op.emplace 3 30 9)
    (MonoReachable.step (t := 0)
      (c := { m_cache := [(1, ⟨10, 1, 0⟩)], m_used := [⟨1, 1⟩],
              m_capacity := 3, m_ttl := 1, nextNode := 2 })
      (Op.emplace 2 20 5)
      (MonoReachable.step (t := 0) (Op.emplace 1 10 0) (MonoReachable.init 0)
        (by intro now h; cases h; decide) rfl)
      (by intro now h; cases h; decide) rfl)
    (by intro now h; cases h; decide) rfl

theorem mapFind_mapErase_some {m : List (K × Entry V)} (hn : (m.map Prod.fst).Nodup)
    {k j : K} {e : Entry V} (h : mapFind (mapErase m k) j = some e) :
    j ≠ k ∧ mapFind m j = some e := by
  have hjk : j ≠ k := by
    intro hjk
    rw [hjk, mapFind_mapErase_self hn] at h
    exact Option.noConfusion h
  exact ⟨hjk, (mapFind_mapErase_ne hjk).symm.trans h⟩

theorem find_entry_cases {c c1 : ExpiringLruCache K V} (hc : Inv c) {k : K} {now : Int}
    {r : Option (K × Entry V)} (h : find c k now = some (r, c1)) (j : K) (e1 : Entry V)
    (hj : mapFind c1.m_cache j = some e1) :
    mapFind c.m_cache j = some e1 ∨ e1.time = now := by
  cases hf : mapFind c.m_cache k with
  | none =>
    rw [find_absent hf] at h
    simp only [Option.some.injEq, Prod.mk.injEq] at h
    rw [← h.2] at hj
    exact Or.inl hj
  | some e =>
    cases hx : isExpired c e now with
    | true =>
      rw [find_expired hc hf hx] at h
      simp only [Option.some.injEq, Prod.mk.injEq] at h
      rw [← h.2] at hj
      exact Or.inl (mapFind_mapErase_some hc.keysNodup hj).2
    | false =>
      rw [find_fresh hc hf hx] at h
      simp only [Option.some.injEq, Prod.mk.injEq] at h
      rw [← h.2] at hj
      have hj1 : mapFind (mapModify c.m_cache k
          (fun x => { x with it := e.it, time := now })) j = some e1 := hj
      rw [mapFind_mapModify] at hj1
      by_cases hjk : j = k
      · rw [if_pos hjk, hf] at hj1
        simp only [Option.map_some', Option.some.injEq] at hj1
        exact Or.inr (by rw [← hj1])
      · rw [if_neg hjk] at hj1
        exact Or.inl hj1

theorem emplace_entry_cases {c c1 : ExpiringLruCache K V} (hc : Inv c) {k : K} {v : V}
    {now : Int} (h : emplace c k v now = some c1) (j : K) (e1 : Entry V)
    (hj : mapFind c1.m_cache j = some e1) :
    mapFind c.m_cache j = some e1 ∨ e1.time = now := by
  by_cases hjk : j = k
  · obtain ⟨it, hit⟩ := emplace_result hc h
    rw [hjk, hit] at hj
    exact Or.inr (by rw [← Option.some.inj hj])
  · left
    cases hf : mapFind c.m_cache k with
    | some e =>
      rw [emplace_present hc hf v now] at h
      rw [← Option.some.inj h] at hj
      have hj1 : mapFind (mapAssign (mapModify c.m_cache k
          (fun x => { x with it := e.it, time := now })) k
          { value := v, it := e.it, time := now }) j = some e1 := hj
      rw [mapFind_mapAssign, if_neg hjk, mapFind_mapModify, if_neg hjk] at hj1
      exact hj1
    | none =>
      by_cases hfull : c.m_cache.length = c.m_capacity
      · rcases List.eq_nil_or_concat c.m_used with hnil | ⟨front, n, hused⟩
        · rw [emplace_absent_empty_full hf hfull hnil] at h
          exact Option.noConfusion h
        · rw [List.concat_eq_append] at hused
          rw [emplace_absent_full hf hfull hused v now] at h
          rw [← Option.some.inj h] at hj
          have hj1 : mapFind (mapAssign (mapErase c.m_cache n.key) k
              { value := v, it := c.nextNode, time := now }) j = some e1 := hj
          rw [mapFind_mapAssign, if_neg hjk] at hj1
          exact (mapFind_mapErase_some hc.keysNodup hj1).2
      · rw [emplace_absent_room hf hfull v now] at h
        rw [← Option.some.inj h] at hj
        have hj1 : mapFind (mapAssign c.m_cache k
            { value := v, it := c.nextNode, time := now }) j = some e1 := hj
        rw [mapFind_mapAssign, if_neg hjk] at hj1
        exact hj1

theorem step_entry_cases {c c1 : ExpiringLruCache K V} (hc : Inv c) {op : Op K V}
    (h : step c op = some c1) (j : K) (e1 : Entry V)
    (hj : mapFind c1.m_cache j = some e1) :
    mapFind c.m_cache j = some e1 ∨ op.clock = some e1.time := by
  cases op with
  | find k now =>
    simp only [ExpiringLruCache.step, Option.map_eq_some'] at h
    obtain ⟨⟨r, c2⟩, hf, rfl⟩ := h
    rcases find_entry_cases hc hf j e1 hj with h1 | h1
    · exact Or.inl h1
    · exact Or.inr (by rw [h1]; rfl)
  | at_ k now =>
    simp only [ExpiringLruCache.step, at_snd, Option.map_eq_some'] at h
    obtain ⟨⟨r, c2⟩, hf, rfl⟩ := h
    rcases find_entry_cases hc hf j e1 hj with h1 | h1
    · exact Or.inl h1
    · exact Or.inr (by rw [h1]; rfl)
  | emplace k v now =>
    rcases emplace_entry_cases hc h j e1 hj with h1 | h1
    · exact Or.inl h1
    · exact Or.inr (by rw [h1]; rfl)
  | size =>
    simp only [ExpiringLruCache.step, Option.some.injEq] at h
    rw [← h] at hj
    exact Or.inl hj

theorem mem_orderTimes {c : ExpiringLruCache K V} {x : Int} (h : x ∈ orderTimes c) :
    ∃ j e, mapFind c.m_cache j = some e ∧ e.time = x := by
  unfold orderTimes at h
  obtain ⟨n, _, hn⟩ := List.mem_filterMap.mp h
  cases he : mapFind c.m_cache n.key with
  | none => simp [he] at hn
  | some e =>
    simp only [he, Option.map_some', Option.some.injEq] at hn
    exact ⟨n.key, e, he, hn⟩

theorem orderTimes_sublist {c c1 : ExpiringLruCache K V} {u : List (Node K)}
    (hsub : List.Sublist u c.m_used)
    (hframe : ∀ n ∈ u, mapFind c1.m_cache n.key = mapFind c.m_cache n.key) :
    List.Sublist (u.filterMap (fun n => (mapFind c1.m_cache n.key).map Entry.time))
      (orderTimes c) := by
  have hcongr : u.filterMap (fun n => (mapFind c1.m_cache n.key).map Entry.time)
      = u.filterMap (fun n => (mapFind c.m_cache n.key).map Entry.time) :=
    List.filterMap_congr (fun n hn => by rw [hframe n hn])
  rw [hcongr]
  exact hsub.filterMap _

theorem orderTimes_pairwise_sub {c c1 : ExpiringLruCache K V}
    (hs : (orderTimes c).Pairwise (fun a b => a ≥ b))
    (hsub : List.Sublist c1.m_used c.m_used)
    (hframe : ∀ n ∈ c1.m_used, mapFind c1.m_cache n.key = mapFind c.m_cache n.key) :
    (orderTimes c1).Pairwise (fun a b => a ≥ b) :=
  hs.sublist (orderTimes_sublist hsub hframe)

theorem orderTimes_pairwise_front {c c1 : ExpiringLruCache K V} {t now : Int}
    (hs : (orderTimes c).Pairwise (fun a b => a ≥ b))
    (hb : ∀ j e, mapFind c.m_cache j = some e → e.time ≤ t) (hnow : t ≤ now)
    {k : K} {i : Nat} {u : List (Node K)} (e1 : Entry V)
    (hused : c1.m_used = Node.mk i k :: u) (hsub : List.Sublist u c.m_used)
    (hframe : ∀ n ∈ u, mapFind c1.m_cache n.key = mapFind c.m_cache n.key)
    (hk : mapFind c1.m_cache k = some e1) (htime : e1.time = now) :
    (orderTimes c1).Pairwise (fun a b => a ≥ b) := by
  have hrest := orderTimes_sublist hsub hframe
  have heq : orderTimes c1
      = now :: u.filterMap (fun n => (mapFind c1.m_cache n.key).map Entry.time) := by
    unfold orderTimes
    rw [hused, List.filterMap_cons]
    simp only [hk, Option.map_some', htime]
  rw [heq, List.pairwise_cons]
  refine ⟨fun x hx => ?_, hs.sublist hrest⟩
  obtain ⟨j, e, he, hxe⟩ := mem_orderTimes (hrest.subset hx)
  have := hb j e he
  omega

theorem Inv.unlink_key_ne {c : ExpiringLruCache K V} (hc : Inv c) {k : K} {e : Entry V}
    (h : mapFind c.m_cache k = some e) {n : Node K}
    (hn : n ∈ listUnlink c.m_used e.it) : n.key ≠ k := by
  obtain ⟨hmem, hid⟩ := (mem_listUnlink hc.idsNodup).mp hn
  obtain ⟨x, hx, hxid⟩ := hc.orderToIndex n hmem
  intro hnk
  rw [hnk, h] at hx
  exact hid ((Option.some.inj hx) ▸ hxid).symm

theorem Inv.absent_key_ne {c : ExpiringLruCache K V} (hc : Inv c) {k : K}
    (h : mapFind c.m_cache k = none) {n : Node K} (hn : n ∈ c.m_used) : n.key ≠ k := by
  obtain ⟨x, hx, _⟩ := hc.orderToIndex n hn
  intro hnk
  rw [hnk, h] at hx
  exact Option.noConfusion hx

theorem Inv.front_key_ne {c : ExpiringLruCache K V} (hc : Inv c) {front : List (Node K)}
    {n : Node K} (hused : c.m_used = front ++ [n]) {x : Node K} (hx : x ∈ front) :
    x.key ≠ n.key := by
  have hnd := hc.orderKeys_nodup
  unfold orderKeys at hnd
  rw [hused, List.map_append, List.nodup_append] at hnd
  intro h
  exact hnd.2.2 (List.mem_map_of_mem Node.key hx) (by rw [h]; simp)

theorem find_times {c c1 : ExpiringLruCache K V} (hc : Inv c) {t now : Int}
    (hs : (orderTimes c).Pairwise (fun a b => a ≥ b))
    (hb : ∀ j e, mapFind c.m_cache j = some e → e.time ≤ t) (hnow : t ≤ now)
    {k : K} {r : Option (K × Entry V)} (h : find c k now = some (r, c1)) :
    (orderTimes c1).Pairwise (fun a b => a ≥ b) := by
  cases hf : mapFind c.m_cache k with
  | none =>
    rw [find_absent hf] at h
    simp only [Option.some.injEq, Prod.mk.injEq] at h
    exact h.2 ▸ hs
  | some e =>
    cases hx : isExpired c e now with
    | true =>
      rw [find_expired hc hf hx] at h
      simp only [Option.some.injEq, Prod.mk.injEq] at h
      rw [← h.2]
      refine orderTimes_pairwise_sub hs (listUnlink_sublist _ _) ?_
      intro n hn
      exact mapFind_mapErase_ne (hc.unlink_key_ne hf hn)
    | false =>
      rw [find_fresh hc hf hx] at h
      simp only [Option.some.injEq, Prod.mk.injEq] at h
      rw [← h.2]
      refine orderTimes_pairwise_front (k := k) (i := e.it) (u := listUnlink c.m_used e.it)
        hs hb hnow { e with time := now } rfl (listUnlink_sublist _ _) ?_ ?_ rfl
      · intro n hn
        show mapFind (mapModify c.m_cache k _) n.key = _
        rw [mapFind_mapModify, if_neg (hc.unlink_key_ne hf hn)]
      · show mapFind (mapModify c.m_cache k _) k = _
        rw [mapFind_mapModify]; simp [hf]

theorem emplace_times {c c1 : ExpiringLruCache K V} (hc : Inv c) {t now : Int}
    (hs : (orderTimes c).Pairwise (fun a b => a ≥ b))
    (hb : ∀ j e, mapFind c.m_cache j = some e → e.time ≤ t) (hnow : t ≤ now)
    {k : K} {v : V} (h : emplace c k v now = some c1) :
    (orderTimes c1).Pairwise (fun a b => a ≥ b) := by
  cases hf : mapFind c.m_cache k with
  | some e =>
    rw [emplace_present hc hf v now] at h
    rw [← Option.some.inj h]
    refine orderTimes_pairwise_front (k := k) (i := e.it) (u := listUnlink c.m_used e.it)
      hs hb hnow { value := v, it := e.it, time := now } rfl
      (listUnlink_sublist _ _) ?_ ?_ rfl
    · intro n hn
      have hne := hc.unlink_key_ne hf hn
      show mapFind (mapAssign (mapModify c.m_cache k _) k _) n.key = _
      rw [mapFind_mapAssign, if_neg hne, mapFind_mapModify, if_neg hne]
    · show mapFind (mapAssign (mapModify c.m_cache k _) k _) k = _
      rw [mapFind_mapAssign]; simp
  | none =>
    by_cases hfull : c.m_cache.length = c.m_capacity
    · rcases List.eq_nil_or_concat c.m_used with hnil | ⟨front, n, hused⟩
      · rw [emplace_absent_empty_full hf hfull hnil] at h
        exact Option.noConfusion h
      · rw [List.concat_eq_append] at hused
        rw [emplace_absent_full hf hfull hused v now] at h
        rw [← Option.some.inj h]
        have hsub : List.Sublist front c.m_used := by
          rw [hused]; exact List.sublist_append_left front [n]
        refine orderTimes_pairwise_front (k := k) (i := c.nextNode) (u := front)
          hs hb hnow { value := v, it := c.nextNode, time := now } rfl hsub ?_ ?_ rfl
        · intro x hx
          have hne := hc.absent_key_ne hf (hsub.subset hx)
          show mapFind (mapAssign (mapErase c.m_cache n.key) k _) x.key = _
          rw [mapFind_mapAssign, if_neg hne]
          exact mapFind_mapErase_ne (hc.front_key_ne hused hx)
        · show mapFind (mapAssign (mapErase c.m_cache n.key) k _) k = _
          rw [mapFind_mapAssign]; simp
    · rw [emplace_absent_room hf hfull v now] at h
      rw [← Option.some.inj h]
      refine orderTimes_pairwise_front (k := k) (i := c.nextNode) (u := c.m_used)
        hs hb hnow { value := v, it := c.nextNode, time := now } rfl
        (List.Sublist.refl _) ?_ ?_ rfl
      · intro x hx
        show mapFind (mapAssign c.m_cache k _) x.key = _
        rw [mapFind_mapAssign, if_neg (hc.absent_key_ne hf hx)]
      · show mapFind (mapAssign c.m_cache k _) k = _
        rw [mapFind_mapAssign]; simp

theorem step_times {c c1 : ExpiringLruCache K V} (hc : Inv c) {t : Int}
    (hs : (orderTimes c).Pairwise (fun a b => a ≥ b))
    (hb : ∀ j e, mapFind c.m_cache j = some e → e.time ≤ t)
    {op : Op K V} (hmono : ∀ now ∈ op.clock, t ≤ now) (h : step c op = some c1) :
    (orderTimes c1).Pairwise (fun a b => a ≥ b) ∧
      ∀ j e, mapFind c1.m_cache j = some e → e.time ≤ op.clock.getD t := by
  constructor
  · cases op with
    | find k now =>
      simp only [ExpiringLruCache.step, Option.map_eq_some'] at h
      obtain ⟨⟨r, c2⟩, hf, rfl⟩ := h
      exact find_times hc hs hb (hmono now rfl) hf
    | at_ k now =>
      simp only [ExpiringLruCache.step, at_snd, Option.map_eq_some'] at h
      obtain ⟨⟨r, c2⟩, hf, rfl⟩ := h
      exact find_times hc hs hb (hmono now rfl) hf
    | emplace k v now => exact emplace_times hc hs hb (hmono now rfl) h
    | size =>
      simp only [ExpiringLruCache.step, Option.some.injEq] at h
      exact h ▸ hs
  · intro j e hj
    rcases step_entry_cases hc h j e hj with h1 | h1
    · have h2 := hb j e h1
      cases hclock : op.clock with
      | none => simpa using h2
      | some now =>
        have := hmono now hclock
        simp only [Option.getD_some]
        omega
    · rw [h1]
      simp

theorem MonoReachable.times {capacity ttl : Nat} {t : Int} {c : ExpiringLruCache K V}
    (h : MonoReachable capacity ttl t c) :
    (orderTimes c).Pairwise (fun a b => a ≥ b) ∧
      ∀ j e, mapFind c.m_cache j = some e → e.time ≤ t := by
  induction h with
  | init t0 =>
    refine ⟨List.Pairwise.nil, ?_⟩
    intro j e he
    simp [ExpiringLruCache.new, mapFind] at he
  | step op hprev hmono hstep ih =>
    exact step_times hprev.reachable.inv ih.1 ih.2 hmono hstep

theorem Inv.orderTimes_length {c : ExpiringLruCache K V} (hc : Inv c) :
    (orderTimes c).length = c.m_used.length := by
  unfold orderTimes
  have key : ∀ l : List (Node K), (∀ n ∈ l, n ∈ c.m_used) →
      (l.filterMap (fun n => (mapFind c.m_cache n.key).map Entry.time)).length = l.length := by
    intro l
    induction l with
    | nil => intro _; rfl
    | cons a rest ih =>
      intro hl
      obtain ⟨e, he, _⟩ := hc.orderToIndex a (hl a (List.mem_cons_self _ _))
      rw [List.filterMap_cons]
      simp only [he, Option.map_some', List.length_cons]
      rw [ih (fun n hn => hl n (List.mem_cons_of_mem _ hn))]
  exact key c.m_used (fun _ h => h)

theorem Inv.tail_is_oldest {c : ExpiringLruCache K V} (hc : Inv c)
    (hs : (orderTimes c).Pairwise (fun a b => a ≥ b)) {last : K} {elast : Entry V}
    (hlast : (orderKeys c).getLast? = some last)
    (helast : mapFind c.m_cache last = some elast) :
    ∀ j e, mapFind c.m_cache j = some e → elast.time ≤ e.time := by
  intro j e he
  rcases List.eq_nil_or_concat c.m_used with hnil | ⟨front, n, hused⟩
  · have hmem := hc.indexToOrder j e he
    rw [hnil] at hmem
    exact absurd hmem (List.not_mem_nil _)
  · rw [List.concat_eq_append] at hused
    have hn : n.key = last := by
      unfold orderKeys at hlast
      rw [hused] at hlast
      simpa using hlast
    have htimes : orderTimes c
        = front.filterMap (fun x => (mapFind c.m_cache x.key).map Entry.time)
          ++ [elast.time] := by
      unfold orderTimes
      rw [hused, List.filterMap_append]
      simp [hn, helast]
    have hmem := hc.indexToOrder j e he
    rw [hused, List.mem_append] at hmem
    rcases hmem with hmem | hmem
    · rw [htimes, List.pairwise_append] at hs
      have hin : e.time ∈ front.filterMap
          (fun x => (mapFind c.m_cache x.key).map Entry.time) :=
        List.mem_filterMap.mpr ⟨_, hmem, by simp [he]⟩
      exact hs.2.2 e.time hin elast.time (List.mem_singleton_self _)
    · have hjn : j = n.key := by
        have := List.mem_singleton.mp hmem
        rw [← this]
      rw [hjn, hn, helast] at he
      rw [← Option.some.inj he]

/-! ## Comparison with a plain map -/

theorem PlainSim.of_find {ttl : Nat} {t0 : Int} {S : List K} {c : ExpiringLruCache K V}
    {m : K → Option V} (h : PlainSim ttl t0 S c m) (k : K) {now : Int}
    (hlo : t0 ≤ now) (hhi : now ≤ t0 + (ttl : Int) * ticksPerSecond) :
    ∃ r c1, find c k now = some (r, c1) ∧ r.map (fun x => x.2.value) = m k ∧
      PlainSim ttl t0 S c1 m := by
  have hc := h.inv
  cases hf : mapFind c.m_cache k with
  | none =>
    refine ⟨none, c, find_absent hf now, ?_, h⟩
    rw [← h.values k, hf]; rfl
  | some e =>
    have httl : 0 ≤ c.m_ttl := by rw [h.ttl_eq]; exact Int.ofNat_nonneg ttl
    have hx : isExpired c e now = false := by
      apply isExpired_false_of_age_le httl
      have := h.times k e hf
      rw [h.ttl_eq]
      omega
    have hfind := find_fresh hc hf hx
    refine ⟨_, _, hfind, ?_, ?_⟩
    · rw [← h.values k, hf]; rfl
    · have hlook : ∀ j, mapFind (mapModify c.m_cache k
          (fun x => { x with it := e.it, time := now })) j
          = if j = k then some { e with time := now } else mapFind c.m_cache j := by
        intro j
        rw [mapFind_mapModify, hf]; rfl
      exact {
        inv := hc.touch hf now
        ttl_eq := h.ttl_eq
        room := h.room
        values := by
          intro j
          show Option.map Entry.value (mapFind (mapModify c.m_cache k _) j) = m j
          rw [hlook, ← h.values j]
          by_cases hjk : j = k
          · rw [if_pos hjk, hjk, hf]; rfl
          · rw [if_neg hjk]
        times := by
          intro j x hj
          have hj1 : mapFind (mapModify c.m_cache k
              (fun x => { x with it := e.it, time := now })) j = some x := hj
          rw [hlook] at hj1
          by_cases hjk : j = k
          · rw [if_pos hjk] at hj1
            rw [← Option.some.inj hj1]
            exact hlo
          · rw [if_neg hjk] at hj1
            exact h.times j x hj1
        keys := by
          intro j hj
          have hj1 : j ∈ (mapModify c.m_cache k
              (fun x => { x with it := e.it, time := now })).map Prod.fst := hj
          rw [mapModify_keys] at hj1
          exact h.keys j hj1 }

theorem PlainSim.of_emplace {ttl : Nat} {t0 : Int} {S : List K} {c : ExpiringLruCache K V}
    {m : K → Option V} (h : PlainSim ttl t0 S c m) {k : K} (hk : k ∈ S) (v : V) {now : Int}
    (hlo : t0 ≤ now) :
    ∃ c1, emplace c k v now = some c1 ∧
      PlainSim ttl t0 S c1 (fun j => if j = k then some v else m j) := by
  have hc := h.inv
  have hroom : mapFind c.m_cache k = none → c.m_cache.length < c.m_capacity := by
    intro hf
    have hnd : (k :: indexKeys c).Nodup :=
      List.nodup_cons.mpr ⟨mapFind_eq_none_iff.mp hf, hc.keysNodup⟩
    have hsub : k :: indexKeys c ⊆ S.dedup := by
      intro j hj
      rcases List.mem_cons.mp hj with hj | hj
      · rw [hj]; exact List.mem_dedup.mpr hk
      · exact List.mem_dedup.mpr (h.keys j hj)
    have hlen := (List.subperm_of_subset hnd hsub).length_le
    have := h.room
    simp only [List.length_cons, indexKeys, List.length_map] at hlen
    omega
  have hlook : ∃ c1 it, emplace c k v now = some c1 ∧
      ∀ j, mapFind c1.m_cache j
        = if j = k then some { value := v, it := it, time := now } else mapFind c.m_cache j := by
    cases hf : mapFind c.m_cache k with
    | some e =>
      refine ⟨_, e.it, emplace_present hc hf v now, ?_⟩
      intro j
      show mapFind (mapAssign (mapModify c.m_cache k _) k _) j = _
      rw [mapFind_mapAssign]
      by_cases hjk : j = k
      · rw [if_pos hjk, if_pos hjk]
      · rw [if_neg hjk, if_neg hjk, mapFind_mapModify, if_neg hjk]
    | none =>
      refine ⟨_, c.nextNode, emplace_absent_room hf (Nat.ne_of_lt (hroom hf)) v now, ?_⟩
      intro j
      show mapFind (mapAssign c.m_cache k _) j = _
      rw [mapFind_mapAssign]
  obtain ⟨c1, it, h1, h2⟩ := hlook
  have hp := emplace_params h1
  refine ⟨c1, h1, ?_⟩
  exact {
    inv := hc.emplace h1
    ttl_eq := hp.2.trans h.ttl_eq
    room := by rw [hp.1]; exact h.room
    values := by
      intro j
      rw [h2 j]
      by_cases hjk : j = k
      · simp only [if_pos hjk]; rfl
      · simp only [if_neg hjk]; exact h.values j
    times := by
      intro j x hj
      rw [h2 j] at hj
      by_cases hjk : j = k
      · rw [if_pos hjk] at hj
        rw [← Option.some.inj hj]
        exact hlo
      · rw [if_neg hjk] at hj
        exact h.times j x hj
    keys := by
      intro j hj
      have hj1 : (mapFind c1.m_cache j).isSome := mapFind_isSome_iff.mpr hj
      rw [h2 j] at hj1
      by_cases hjk : j = k
      · rw [hjk]; exact hk
      · rw [if_neg hjk] at hj1
        exact h.keys j (mapFind_isSome_iff.mp hj1) }

theorem runFinds_plain (ttl : Nat) (t0 : Int) (S : List K) (ops : List (Op K V)) :
    ∀ (c : ExpiringLruCache K V) (m : K → Option V), PlainSim ttl t0 S c m →
      (∀ j ∈ emplacedKeys ops, j ∈ S) →
      (∀ op ∈ ops, ∀ now ∈ op.clock, t0 ≤ now ∧ now ≤ t0 + (ttl : Int) * ticksPerSecond) →
      runFinds c ops = some (plainFinds m ops) := by
  induction ops with
  | nil => intro c m _ _ _; rfl
  | cons op rest ih =>
    intro c m hsim hkeys hwin
    have hwin1 : ∀ op1 ∈ rest, ∀ now ∈ op1.clock,
        t0 ≤ now ∧ now ≤ t0 + (ttl : Int) * ticksPerSecond :=
      fun op1 h1 => hwin op1 (List.mem_cons_of_mem _ h1)
    cases op with
    | find k now =>
      have hw := hwin (Op.find k now) (List.mem_cons_self _ _) now rfl
      obtain ⟨r, c1, h1, h2, h3⟩ := hsim.of_find k hw.1 hw.2
      simp only [runFinds, h1, plainFinds]
      rw [ih c1 m h3 hkeys hwin1, h2]
      rfl
    | at_ k now =>
      have hw := hwin (Op.at_ k now) (List.mem_cons_self _ _) now rfl
      obtain ⟨r, c1, h1, h2, h3⟩ := hsim.of_find k hw.1 hw.2
      have hstep : step c (Op.at_ k now) = some c1 := by
        simp [ExpiringLruCache.step, at_snd, h1]
      simp only [runFinds, hstep, plainFinds]
      exact ih c1 m h3 hkeys hwin1
    | emplace k v now =>
      have hw := hwin (Op.emplace k v now) (List.mem_cons_self _ _) now rfl
      have hk : k ∈ S := hkeys k (by simp [emplacedKeys])
      obtain ⟨c1, h1, h3⟩ := hsim.of_emplace hk v hw.1
      have hstep : step c (Op.emplace k v now) = some c1 := h1
      simp only [runFinds, hstep, plainFinds]
      exact ih c1 _ h3 (fun j hj => hkeys j (by simp [emplacedKeys, hj])) hwin1
    | size =>
      simp only [runFinds, plainFinds]
      exact ih c m hsim hkeys hwin1

/-! ## The back of the node list -/

omit [DecidableEq K] in
theorem listBack_concat (front : List (Node K)) (n : Node K) :
    listBack (front ++ [n]) = some n.key := by
  simp [listBack]

omit [DecidableEq K] in
theorem listPopBack_concat (front : List (Node K)) (n : Node K) :
    listPopBack (front ++ [n]) = some front := by
  cases front with
  | nil => simp [listPopBack]
  | cons a rest =>
    have := @List.dropLast_concat _ (a :: rest) n
    simpa [listPopBack] using this

/-! ## The claims -/

/-- C1 (size invariant). In every state reachable from a cache constructed with capacity at
least one by calls of `find`, `at`, `emplace` and `size` at any clock values, `size()`
equals `_listSize()` and is at most the capacity; moreover every further call has defined
behaviour, so the reachable states are exactly the states the calls produce. -/
theorem size_invariant (capacity ttl : Nat) (hcap : 1 ≤ capacity)
    (c : ExpiringLruCache K V) (h : Reachable capacity ttl c) :
    size c = _listSize c ∧ size c ≤ capacity ∧ ∀ op : Op K V, ∃ c1, step c op = some c1 := by
  have hc := h.inv
  have hp := h.params
  refine ⟨hc.sizeEq, hp.1 ▸ hc.sizeLe, fun op => step_defined hc ?_ op⟩
  rw [hp.1]; exact hcap

theorem size_invariant_witness :
    size typicalCache = _listSize typicalCache ∧ size typicalCache ≤ 3 ∧
      ∀ op : Op Nat Nat, ∃ c1, step typicalCache op = some c1 :=
  size_invariant 3 1 (by decide) typicalCache typicalCache_reachable

/-- C2 (no-orphan invariant). In every state reachable from the empty cache by `find`, `at`
and `emplace` (for every capacity, in particular every capacity at least one), a key
occurs in the Order list `m_used` exactly when it is a key of the Index `m_cache`, and
the Order list holds each key at most once. -/
theorem no_orphan_invariant (capacity ttl : Nat) (c : ExpiringLruCache K V)
    (h : Reachable capacity ttl c) :
    (∀ k, k ∈ orderKeys c ↔ k ∈ indexKeys c) ∧ (orderKeys c).Nodup :=
  ⟨h.inv.mem_orderKeys_iff, h.inv.orderKeys_nodup⟩

theorem no_orphan_invariant_witness :
    (∀ k, k ∈ orderKeys typicalCache ↔ k ∈ indexKeys typicalCache) ∧
      (orderKeys typicalCache).Nodup :=
  no_orphan_invariant 3 1 typicalCache typicalCache_reachable

/-- C3 as stated fails on the code: the constructor has no error path, so constructing
with capacity zero does not yield a construction error. -/
theorem construct_zero_is_not_an_error :
    ¬ ∀ ttl : Nat, ∃ err : Exception,
      (construct 0 ttl : Except Exception (ExpiringLruCache Nat Nat)) = Except.error err := by
  intro h
  obtain ⟨err, herr⟩ := h 1
  simp [construct] at herr

/-- C3 (amended). Construction with capacity zero succeeds: for every ttl the constructor
returns, without any error, an empty cache (`size()` and `_listSize()` are 0) whose
capacity is 0 and whose ttl is the given one, and on which `find` reports every key
absent and changes nothing. -/
theorem construct_zero_succeeds (ttl : Nat) :
    ∃ c : ExpiringLruCache K V, construct 0 ttl = Except.ok c ∧ size c = 0 ∧
      _listSize c = 0 ∧ c.m_capacity = 0 ∧ c.m_ttl = (ttl : Int) ∧
      ∀ (k : K) (now : Int), find c k now = some (none, c) :=
  ⟨new 0 ttl, rfl, rfl, rfl, rfl, rfl, fun _ _ => rfl⟩

/-- C4 (a successful lookup touches the entry). In a reachable cache, when `k` is in the
Index with entry `e` and the age `now - e.time` is at most ttl seconds, `find(k)` returns
an iterator to `k`, whose entry holds the stored value; afterwards `k` is at the front of
the Order list, its entry has the same value and time `now`, and `size()` is unchanged. -/
theorem find_hit_touches (capacity ttl : Nat) (c : ExpiringLruCache K V)
    (hr : Reachable capacity ttl c) (k : K) (e : Entry V) (now : Int)
    (hk : mapFind c.m_cache k = some e)
    (hage : now - e.time ≤ (ttl : Int) * ticksPerSecond) :
    ∃ c1, find c k now = some (some (k, { e with time := now }), c1) ∧
      (orderKeys c1).head? = some k ∧
      mapFind c1.m_cache k = some { e with time := now } ∧
      size c1 = size c := by
  have hc := hr.inv
  have hx : isExpired c e now = false := by
    cases hx : isExpired c e now with
    | false => rfl
    | true =>
      have httl : 0 ≤ c.m_ttl := by rw [hr.params.2]; exact Int.ofNat_nonneg ttl
      have h1 := (isExpired_iff httl e now).mp hx
      rw [hr.params.2] at h1
      unfold ticksPerSecond at h1 hage
      omega
  refine ⟨_, find_fresh hc hk hx, orderKeys_touch_head, ?_, ?_⟩
  · show mapFind (mapModify c.m_cache k _) k = _
    rw [mapFind_mapModify]; simp [hk]
  · show (mapModify c.m_cache k _).length = c.m_cache.length
    rw [← List.length_map (mapModify c.m_cache k _) Prod.fst, mapModify_keys, List.length_map]

theorem find_hit_touches_witness :
    (1000000000 : Int) - 0 ≤ ((1 : Nat) : Int) * ticksPerSecond ∧
    ∃ c1, find typicalCache 1 1000000000 = some (some (1, ⟨10, 1, 1000000000⟩), c1) ∧
      (orderKeys c1).head? = some 1 ∧
      mapFind c1.m_cache 1 = some ⟨10, 1, 1000000000⟩ ∧
      size c1 = size typicalCache :=
  ⟨by decide,
    find_hit_touches 3 1 typicalCache typicalCache_reachable 1 ⟨10, 1, 0⟩ 1000000000 rfl
      (by decide)⟩

/-- C5 (lazy expiration removes the entry in the same call). In a reachable cache, when
`k` is in the Index and `find` judges its entry expired (its age in whole seconds is
greater than ttl), `size()` before the call counts `k`; `find(k)` returns `end()`; after
that one call `k` is neither in the Index nor in the Order list and `size()` is exactly
one less than before. -/
theorem find_expired_removes (capacity ttl : Nat) (c : ExpiringLruCache K V)
    (hr : Reachable capacity ttl c) (k : K) (e : Entry V) (now : Int)
    (hk : mapFind c.m_cache k = some e)
    (hexp : durationCastSeconds (now - e.time) > (ttl : Int)) :
    k ∈ indexKeys c ∧ size c = (indexKeys c).length ∧
    ∃ c1, find c k now = some (none, c1) ∧ k ∉ indexKeys c1 ∧ k ∉ orderKeys c1 ∧
      size c1 + 1 = size c := by
  have hc := hr.inv
  have hx : isExpired c e now = true := by
    unfold isExpired
    rw [decide_eq_true_iff, hr.params.2]
    exact hexp
  have hc1 := hc.erase hk
  have hgone : k ∉ indexKeys
      { c with m_used := listUnlink c.m_used e.it, m_cache := mapErase c.m_cache k } :=
    mapFind_eq_none_iff.mp (mapFind_mapErase_self hc.keysNodup)
  refine ⟨mapFind_isSome_iff.mp (by rw [hk]; rfl), (List.length_map _ _).symm,
    _, find_expired hc hk hx, hgone, ?_, mapErase_length hk⟩
  exact fun h => hgone ((hc1.mem_orderKeys_iff k).mp h)

theorem find_expired_removes_witness :
    durationCastSeconds (2000000000 - 0) > ((1 : Nat) : Int) ∧
    (1 ∈ indexKeys typicalCache ∧ size typicalCache = (indexKeys typicalCache).length ∧
      ∃ c1, find typicalCache 1 2000000000 = some (none, c1) ∧ 1 ∉ indexKeys c1 ∧
        1 ∉ orderKeys c1 ∧ size c1 + 1 = size typicalCache) :=
  ⟨by decide,
    find_expired_removes 3 1 typicalCache typicalCache_reachable 1 ⟨10, 1, 0⟩ 2000000000 rfl
      (by decide)⟩

/-- C6 as stated fails on the code: in the fixture cache (ttl 1 s) the entry of key 1 was
touched at time 0; at clock value 1.5 s its age is strictly greater than ttl, yet `find`
does not treat it as expired and returns it. -/
theorem expiry_boundary_counterexample :
    mapFind typicalCache.m_cache 1 = some ⟨10, 1, 0⟩ ∧
    (1500000000 : Int) - 0 > typicalCache.m_ttl * ticksPerSecond ∧
    isExpired typicalCache ⟨10, 1, 0⟩ 1500000000 = false ∧
    find typicalCache 1 1500000000 = some (some (1, ⟨10, 1, 1500000000⟩),
      { typicalCache with
        m_cache := [(1, ⟨10, 1, 1500000000⟩), (2, ⟨20, 2, 0⟩), (3, ⟨30, 3, 0⟩)]
        m_used := [⟨1, 1⟩, ⟨3, 3⟩, ⟨2, 2⟩] }) :=
  ⟨rfl, by decide, rfl, rfl⟩

/-- C6 (amended). For a present entry of a reachable cache and every clock value `now`,
`find` treats the entry as expired (returns `end()`) exactly when the age truncated to
whole seconds is strictly greater than ttl, that is exactly when the age is at least
ttl + 1 seconds. An entry whose age equals ttl is not expired, and neither is an entry
whose age is ttl + 0.5 s: both are returned by `find`. -/
theorem expiry_boundary (capacity ttl : Nat) (c : ExpiringLruCache K V)
    (hr : Reachable capacity ttl c) (k : K) (e : Entry V) (now : Int)
    (hk : mapFind c.m_cache k = some e) :
    ((∃ c1, find c k now = some (none, c1)) ↔
      durationCastSeconds (now - e.time) > (ttl : Int)) ∧
    (durationCastSeconds (now - e.time) > (ttl : Int) ↔
      ((ttl : Int) + 1) * ticksPerSecond ≤ now - e.time) ∧
    (now - e.time = (ttl : Int) * ticksPerSecond →
      ∃ c1, find c k now = some (some (k, { e with time := now }), c1)) ∧
    (now - e.time = (ttl : Int) * ticksPerSecond + 500000000 →
      ∃ c1, find c k now = some (some (k, { e with time := now }), c1)) := by
  have hc := hr.inv
  have httl : c.m_ttl = (ttl : Int) := hr.params.2
  have hiff := durationCastSeconds_gt_iff (d := now - e.time) (Int.ofNat_nonneg ttl)
  have hexp : isExpired c e now = true ↔ durationCastSeconds (now - e.time) > (ttl : Int) := by
    unfold isExpired
    rw [decide_eq_true_iff, httl]
  have hfresh : ¬ ((ttl : Int) + 1) * ticksPerSecond ≤ now - e.time →
      ∃ c1, find c k now = some (some (k, { e with time := now }), c1) := by
    intro hlt
    have hx : isExpired c e now = false := by
      cases hx : isExpired c e now with
      | false => rfl
      | true => exact absurd (hiff.mp (hexp.mp hx)) hlt
    exact ⟨_, find_fresh hc hk hx⟩
  refine ⟨⟨?_, ?_⟩, hiff, ?_, ?_⟩
  · rintro ⟨c1, h1⟩
    by_contra hnot
    obtain ⟨c2, h2⟩ := hfresh (fun h => hnot (hiff.mpr h))
    rw [h2] at h1
    simp at h1
  · intro h
    exact ⟨_, find_expired hc hk (hexp.mpr h)⟩
  · intro hage
    apply hfresh
    unfold ticksPerSecond at hage ⊢
    omega
  · intro hage
    apply hfresh
    unfold ticksPerSecond at hage ⊢
    omega

theorem expiry_boundary_witness :
    ((∃ c1, find typicalCache 1 1500000000 = some (none, c1)) ↔
      durationCastSeconds (1500000000 - 0) > ((1 : Nat) : Int)) ∧
    (durationCastSeconds (1500000000 - 0) > ((1 : Nat) : Int) ↔
      (((1 : Nat) : Int) + 1) * ticksPerSecond ≤ 1500000000 - 0) ∧
    ((1500000000 : Int) - 0 = ((1 : Nat) : Int) * ticksPerSecond →
      ∃ c1, find typicalCache 1 1500000000 = some (some (1, ⟨10, 1, 1500000000⟩), c1)) ∧
    ((1500000000 : Int) - 0 = ((1 : Nat) : Int) * ticksPerSecond + 500000000 →
      ∃ c1, find typicalCache 1 1500000000 = some (some (1, ⟨10, 1, 1500000000⟩), c1)) :=
  expiry_boundary 3 1 typicalCache typicalCache_reachable 1 ⟨10, 1, 0⟩ 1500000000 rfl

/-- C7 (`at` fails exactly when `find` reports absent). For every cache state, key and
clock value: `at(k)` throws `out_of_range` and leaves the cache `c1` exactly when
`find(k)` returns `end()` and leaves `c1`; `at(k)` returns `v` and leaves `c1` exactly
when `find(k)` locates an entry with value `v` and leaves `c1`; and `at(k)` is undefined
exactly when `find(k)` is. No other value is ever returned. -/
theorem at_agrees_with_find (c : ExpiringLruCache K V) (k : K) (now : Int) :
    (∀ c1, at_ c k now = some (Except.error Exception.out_of_range, c1) ↔
      find c k now = some (none, c1)) ∧
    (∀ v c1, at_ c k now = some (Except.ok v, c1) ↔
      ∃ j e, find c k now = some (some (j, e), c1) ∧ e.value = v) ∧
    (at_ c k now = none ↔ find c k now = none) := by
  unfold at_
  cases hf : find c k now with
  | none => simp
  | some p =>
    obtain ⟨r, c2⟩ := p
    cases r with
    | none => simp
    | some x =>
      obtain ⟨j, e⟩ := x
      refine ⟨fun c1 => by simp, fun v c1 => ?_, by simp⟩
      constructor
      · intro h
        have h1 : e.value = v ∧ c2 = c1 := by simpa using h
        exact ⟨j, e, by rw [h1.2], h1.1⟩
      · rintro ⟨j1, e1, h1, h2⟩
        have h3 : (j = j1 ∧ e = e1) ∧ c2 = c1 := by simpa using h1
        rw [← h3.2, ← h2, ← h3.1.2]

/-- C8 (re-insertion is authoritative). In a reachable cache, when `k` is already in the
Index (whatever its age and whether or not the cache is full), `emplace(k, v)` at clock
value `now` leaves `k` present with value `v` and time `now`, at the front of the Order
list (the other keys keep their relative order); the Index has the same keys as before,
so no entry is evicted and `size()` is unchanged, and every other key keeps its entry. -/
theorem emplace_existing_refreshes (capacity ttl : Nat) (c : ExpiringLruCache K V)
    (hr : Reachable capacity ttl c) (k : K) (e : Entry V)
    (hk : mapFind c.m_cache k = some e) (v : V) (now : Int) :
    ∃ c1, emplace c k v now = some c1 ∧
      mapFind c1.m_cache k = some { value := v, it := e.it, time := now } ∧
      orderKeys c1 = k :: (orderKeys c).erase k ∧
      indexKeys c1 = indexKeys c ∧
      size c1 = size c ∧
      (∀ j, j ≠ k → mapFind c1.m_cache j = mapFind c.m_cache j) := by
  obtain ⟨c1, h1, h2, h3, h4, h5⟩ := emplace_existing_spec hr.inv hk v now
  refine ⟨c1, h1, h2, h3, h4, ?_, h5⟩
  have := congrArg List.length h4
  simpa [indexKeys, size] using this

theorem emplace_existing_refreshes_witness :
    ∃ c1, emplace typicalCache 3 33 5000000000 = some c1 ∧
      mapFind c1.m_cache 3 = some { value := 33, it := 3, time := 5000000000 } ∧
      orderKeys c1 = 3 :: (orderKeys typicalCache).erase 3 ∧
      indexKeys c1 = indexKeys typicalCache ∧
      size c1 = size typicalCache ∧
      (∀ j, j ≠ 3 → mapFind c1.m_cache j = mapFind typicalCache.m_cache j) :=
  emplace_existing_refreshes 3 1 typicalCache typicalCache_reachable 3 ⟨30, 3, 0⟩ rfl 33
    5000000000

/-- C9 (capacity eviction removes exactly the Order tail). In a reachable cache of capacity
at least one with `size() == capacity`, `emplace(k, v)` of a key not in the Index removes
exactly one entry, the one whose key `last` is at the back of the Order list (whatever
the ages of the entries): `last` was present and is absent afterwards, every key other
than `last` and `k` keeps its entry, `k` is present with value `v` and time `now`,
`size()` is unchanged, and the new Order list is `k` followed by the old Order list
without its last element. -/
theorem emplace_full_evicts_tail (capacity ttl : Nat) (hcap : 1 ≤ capacity)
    (c : ExpiringLruCache K V) (hr : Reachable capacity ttl c) (k : K) (v : V) (now : Int)
    (hk : mapFind c.m_cache k = none) (hfull : size c = capacity) :
    ∃ c1 last, emplace c k v now = some c1 ∧
      (orderKeys c).getLast? = some last ∧
      orderKeys c1 = k :: (orderKeys c).dropLast ∧
      (mapFind c.m_cache last).isSome ∧
      mapFind c1.m_cache last = none ∧
      (∀ j, j ≠ last → j ≠ k → mapFind c1.m_cache j = mapFind c.m_cache j) ∧
      mapFind c1.m_cache k = some { value := v, it := c.nextNode, time := now } ∧
      size c1 = size c := by
  have hp := hr.params.1
  exact emplace_full_spec hr.inv (by rw [hp]; exact hcap) hk (by rw [hp]; exact hfull) v now

theorem emplace_full_evicts_tail_witness :
    orderKeys typicalCache = [3, 2, 1] ∧
    ∃ c1 last, emplace typicalCache 4 40 7 = some c1 ∧
      (orderKeys typicalCache).getLast? = some last ∧
      orderKeys c1 = [4, 3, 2] ∧
      (mapFind typicalCache.m_cache last).isSome ∧
      mapFind c1.m_cache last = none ∧
      (∀ j, j ≠ last → j ≠ 4 → mapFind c1.m_cache j = mapFind typicalCache.m_cache j) ∧
      mapFind c1.m_cache 4 = some { value := 40, it := 4, time := 7 } ∧
      size c1 = size typicalCache :=
  ⟨rfl, emplace_full_evicts_tail 3 1 (by decide) typicalCache typicalCache_reachable 4 40 7
    rfl rfl⟩

/-- C10 (capacity property). For every capacity `n` at least one and every list of `n + 1`
insertions with pairwise distinct keys (at any clock values), emplacing them in order
into a freshly constructed cache, with no other call in between, is defined and leaves
`size() == n`; the first-inserted key is absent from the Index and each of the other `n`
keys is present with its inserted value. -/
theorem capacity_property (n ttl : Nat) (hn : 1 ≤ n) (l : List (K × V × Int))
    (hlen : l.length = n + 1) (hnd : (l.map Prod.fst).Nodup) :
    ∃ c : ExpiringLruCache K V, emplaceAll (new n ttl) l = some c ∧ size c = n ∧
      (∀ p ∈ l.head?, mapFind c.m_cache p.1 = none) ∧
      (∀ p ∈ l.tail, (mapFind c.m_cache p.1).map Entry.value = some p.2.1) := by
  rcases List.eq_nil_or_concat l with hnil | ⟨a, x, hl⟩
  · rw [hnil] at hlen; simp at hlen
  rw [List.concat_eq_append] at hl
  subst hl
  obtain ⟨kx, vx, tx⟩ := x
  cases a with
  | nil => simp at hlen; omega
  | cons f rest =>
    have hlen1 : (f :: rest).length = n := by simpa using hlen
    rw [List.map_append, List.nodup_append] at hnd
    obtain ⟨hnda, _, hdisj⟩ := hnd
    have hkx : kx ∉ (f :: rest).map Prod.fst := fun h => hdisj h (by simp)
    obtain ⟨c1, h1, h2, h3, h4, h5, h6, h7⟩ :=
      emplaceAll_with_room (f :: rest) (new n ttl : ExpiringLruCache K V) (Inv.new n ttl) hnda
        (fun _ _ => rfl) (by show 0 + (f :: rest).length ≤ n; omega)
    have hcap1 : c1.m_capacity = n := h3
    have hfull : c1.m_cache.length = c1.m_capacity := by
      rw [h5, hcap1]
      show 0 + (f :: rest).length = n
      omega
    have hkabs : mapFind c1.m_cache kx = none := (h7 kx hkx).trans rfl
    obtain ⟨c2, last, e1, e2, _, _, e5, e6, e7, e8⟩ :=
      emplace_full_spec h2 (by rw [hcap1]; exact hn) hkabs hfull vx tx
    have hlast : last = f.1 := by
      rw [h4] at e2
      have : orderKeys (new n ttl : ExpiringLruCache K V) = [] := rfl
      rw [this, List.append_nil, List.getLast?_reverse] at e2
      simpa using e2.symm
    have hnda1 := hnda
    rw [List.map_cons, List.nodup_cons] at hnda1
    refine ⟨c2, ?_, ?_, ?_, ?_⟩
    · rw [emplaceAll_append, h1]
      simp only [Option.some_bind, emplaceAll, e1]
    · show c2.m_cache.length = n
      have : c2.m_cache.length = c1.m_cache.length := e8
      rw [this, hfull, hcap1]
    · intro p hp
      have : p = f := by simpa using hp.symm
      rw [this, ← hlast]
      exact e5
    · intro p hp
      have hp1 : p ∈ rest ∨ p = (kx, vx, tx) := by simpa using hp
      rcases hp1 with hp1 | hp1
      · have hpl : p.1 ≠ last := by
          rw [hlast]
          exact fun h => hnda1.1 (h ▸ List.mem_map_of_mem Prod.fst hp1)
        have hpk : p.1 ≠ kx :=
          fun h => hkx (h ▸ List.mem_map_of_mem Prod.fst (List.mem_cons_of_mem _ hp1))
        rw [e6 p.1 hpl hpk]
        exact h6 p (List.mem_cons_of_mem _ hp1)
      · subst hp1
        rw [e7]
        rfl

theorem capacity_property_witness :
    ∃ c : ExpiringLruCache Nat Nat,
      emplaceAll (new 2 1) [(1, 10, 0), (2, 20, 5), (3, 30, 9)] = some c ∧ size c = 2 ∧
      (∀ p ∈ [(1, 10, (0 : Int)), (2, 20, 5), (3, 30, 9)].head?, mapFind c.m_cache p.1 = none) ∧
      (∀ p ∈ [(1, 10, (0 : Int)), (2, 20, 5), (3, 30, 9)].tail,
        (mapFind c.m_cache p.1).map Entry.value = some p.2.1) :=
  capacity_property 2 1 (by decide) [(1, 10, 0), (2, 20, 5), (3, 30, 9)] rfl (by decide)

/-- C11 (a lookup miss has no side effect). For every cache state, clock value and key `k`
that is not a key of the Index, `find(k)` returns `end()` and the cache after the call is
the cache before it: same Index contents, same values and times, same Order list. -/
theorem find_miss_no_effect (c : ExpiringLruCache K V) (k : K) (now : Int)
    (hk : k ∉ indexKeys c) : find c k now = some (none, c) :=
  find_absent (mapFind_eq_none_iff.mpr hk) now

theorem find_miss_no_effect_witness :
    10 ∉ indexKeys typicalCache ∧ find typicalCache 10 0 = some (none, typicalCache) :=
  ⟨by decide, find_miss_no_effect typicalCache 10 0 (by decide)⟩

/-- C12 (continuous access never expires). In a reachable cache of capacity at least one,
`emplace(k, v)` at clock value `t0` followed by `find(k)` at the clock values of `ts`,
each at most ttl seconds after the one before it (in particular for non-decreasing clock
values with such gaps), with no other call in between, is defined and every one of the
lookups returns an entry with value `v`, however long the whole sequence lasts. -/
theorem continuous_access_never_expires (capacity ttl : Nat) (hcap : 1 ≤ capacity)
    (c : ExpiringLruCache K V) (hr : Reachable capacity ttl c) (k : K) (v : V)
    (t0 : Int) (ts : List Int)
    (hgaps : List.Chain (fun a b : Int => b - a ≤ (ttl : Int) * ticksPerSecond) t0 ts) :
    ∃ c1 rs c2, emplace c k v t0 = some c1 ∧ findAll c1 k ts = some (rs, c2) ∧
      rs.length = ts.length ∧ ∀ r ∈ rs, r.map (fun x => x.2.value) = some v := by
  have hc := hr.inv
  have hp := hr.params
  obtain ⟨c1, h1⟩ := emplace_defined hc (by rw [hp.1]; exact hcap) k v t0
  obtain ⟨it, h2⟩ := emplace_result hc h1
  have httl : c1.m_ttl = (ttl : Int) := (emplace_params h1).2.trans hp.2
  obtain ⟨rs, c2, h3, h4, h5⟩ := findAll_within_ttl ts c1 k _ (hc.emplace h1)
    (by rw [httl]; exact Int.ofNat_nonneg ttl) h2 (by rw [httl]; exact hgaps)
  exact ⟨c1, rs, c2, h1, h3, h4, h5⟩

theorem continuous_access_never_expires_witness :
    List.Chain (fun a b : Int => b - a ≤ ((1 : Nat) : Int) * ticksPerSecond) 0
      [1000000000, 2000000000, 3000000000] ∧
    ∃ c1 rs c2, emplace typicalCache 2 22 0 = some c1 ∧
      findAll c1 2 [1000000000, 2000000000, 3000000000] = some (rs, c2) ∧
      rs.length = [(1000000000 : Int), 2000000000, 3000000000].length ∧
      ∀ r ∈ rs, r.map (fun x => x.2.value) = some 22 :=
  ⟨List.Chain.cons (by decide) (List.Chain.cons (by decide) (List.Chain.cons (by decide)
      List.Chain.nil)),
    continuous_access_never_expires 3 1 (by decide) typicalCache typicalCache_reachable 2 22 0
      [1000000000, 2000000000, 3000000000]
      (List.Chain.cons (by decide) (List.Chain.cons (by decide) (List.Chain.cons (by decide)
        List.Chain.nil)))⟩

/-- C13 (documented example timeline). With capacity 2 and ttl 3 s: `emplace(1, "a")` and
`emplace(2, "b")` at time 0; `at(1)`, `at(2)`, `find(1)`, `find(2)` at time 0 give "a",
"b", "a", "b"; `at(1)` at time 2 s gives "a"; at time 4 s `at(1)` gives "a" and `find(2)`
returns `end()`, after which `size()` is 1. -/
theorem example_timeline :
    ∃ c1 c2 c3 c4 c5 c6 c7 c8 c9 : ExpiringLruCache Nat String, ∃ e1 e2 : Entry String,
      emplace (new 2 3) 1 "a" 0 = some c1 ∧
      emplace c1 2 "b" 0 = some c2 ∧
      at_ c2 1 0 = some (Except.ok "a", c3) ∧
      at_ c3 2 0 = some (Except.ok "b", c4) ∧
      find c4 1 0 = some (some (1, e1), c5) ∧ e1.value = "a" ∧
      find c5 2 0 = some (some (2, e2), c6) ∧ e2.value = "b" ∧
      at_ c6 1 2000000000 = some (Except.ok "a", c7) ∧
      at_ c7 1 4000000000 = some (Except.ok "a", c8) ∧
      find c8 2 4000000000 = some (none, c9) ∧
      size c9 = 1 :=
  ⟨_, _, _, _, _, _, _, _, _, _, _, rfl, rfl, rfl, rfl, rfl, rfl, rfl, rfl, rfl, rfl, rfl, rfl⟩

/-- C14 (only two causes of removal). In a reachable cache of capacity at least one, when
a single call among `find`, `at`, `emplace` and `size` leaves a key `k` of the Index out
of the Index, then either the call is `emplace(k1, v)` for a key `k1` other than `k` that
was not present, `size()` equalled the capacity and `k` was at the back of the Order
list, or the call is `find(k)` or `at(k)` and the entry of `k` was expired at that call. -/
theorem removal_has_two_causes (capacity ttl : Nat) (hcap : 1 ≤ capacity)
    (c : ExpiringLruCache K V) (hr : Reachable capacity ttl c) (op : Op K V)
    (c1 : ExpiringLruCache K V) (hstep : step c op = some c1) (k : K)
    (hin : k ∈ indexKeys c) (hout : k ∉ indexKeys c1) :
    (∃ k1 v now, op = Op.emplace k1 v now ∧ k1 ≠ k ∧ k1 ∉ indexKeys c ∧
        size c = capacity ∧ (orderKeys c).getLast? = some k) ∨
    (∃ now e, (op = Op.find k now ∨ op = Op.at_ k now) ∧ mapFind c.m_cache k = some e ∧
        isExpired c e now = true) := by
  have hc := hr.inv
  have hp := hr.params.1
  cases op with
  | find k1 now =>
    simp only [ExpiringLruCache.step, Option.map_eq_some'] at hstep
    obtain ⟨⟨r, c2⟩, hf, rfl⟩ := hstep
    obtain ⟨h1, e, h2, h3⟩ := find_removes_only_expired hc hf hin hout
    exact Or.inr ⟨now, e, Or.inl (by rw [h1]), h2, h3⟩
  | at_ k1 now =>
    simp only [ExpiringLruCache.step, at_snd, Option.map_eq_some'] at hstep
    obtain ⟨⟨r, c2⟩, hf, rfl⟩ := hstep
    obtain ⟨h1, e, h2, h3⟩ := find_removes_only_expired hc hf hin hout
    exact Or.inr ⟨now, e, Or.inr (by rw [h1]), h2, h3⟩
  | emplace k1 v now =>
    obtain ⟨h1, h2, h3, h4⟩ :=
      emplace_removes_only_tail hc (by rw [hp]; exact hcap) hstep hin hout
    exact Or.inl ⟨k1, v, now, rfl, h1, mapFind_eq_none_iff.mp h2, h3.trans hp, h4⟩
  | size =>
    simp only [ExpiringLruCache.step, Option.some.injEq] at hstep
    exact absurd (hstep ▸ hin) hout

theorem removal_has_two_causes_witness :
    (∃ k1 v now, (Op.find 1 2000000000 : Op Nat Nat) = Op.emplace k1 v now ∧ k1 ≠ 1 ∧
        k1 ∉ indexKeys typicalCache ∧ size typicalCache = 3 ∧
        (orderKeys typicalCache).getLast? = some 1) ∨
    (∃ now e, ((Op.find 1 2000000000 : Op Nat Nat) = Op.find 1 now ∨
        (Op.find 1 2000000000 : Op Nat Nat) = Op.at_ 1 now) ∧
        mapFind typicalCache.m_cache 1 = some e ∧ isExpired typicalCache e now = true) :=
  removal_has_two_causes 3 1 (by decide) typicalCache typicalCache_reachable
    (Op.find 1 2000000000)
    { m_cache := [(2, ⟨20, 2, 0⟩), (3, ⟨30, 3, 0⟩)], m_used := [⟨3, 3⟩, ⟨2, 2⟩],
      m_capacity := 3, m_ttl := 1, nextNode := 4 }
    rfl 1 (by decide) (by decide)

/-- C15 (the evicted entry is the oldest one). When every call reads a clock value at least
as large as the call before it, in every reachable state the `last_touched` time points
read along the Order list from front to back are non-increasing (one time point per
entry); so when `emplace` of a new key into a full cache of capacity at least one evicts
the key `last` at the back of the Order list, the `last_touched` of `last` is less than
or equal to that of every entry of the cache. -/
theorem eviction_removes_oldest (capacity ttl : Nat) (hcap : 1 ≤ capacity) (t : Int)
    (c : ExpiringLruCache K V) (hr : MonoReachable capacity ttl t c) :
    (orderTimes c).Pairwise (fun a b => a ≥ b) ∧ (orderTimes c).length = size c ∧
    ∀ (k : K) (v : V) (now : Int), k ∉ indexKeys c → size c = capacity →
      ∃ c1 last elast, emplace c k v now = some c1 ∧
        (orderKeys c).getLast? = some last ∧
        mapFind c.m_cache last = some elast ∧ mapFind c1.m_cache last = none ∧
        ∀ j e, mapFind c.m_cache j = some e → elast.time ≤ e.time := by
  have hc := hr.reachable.inv
  have hp := hr.reachable.params.1
  have hs := hr.times.1
  refine ⟨hs, hc.orderTimes_length.trans hc.sizeEq.symm, ?_⟩
  intro k v now hk hfull
  obtain ⟨c1, last, h1, h2, _, h4, h5, _⟩ :=
    emplace_full_spec hc (by rw [hp]; exact hcap) (mapFind_eq_none_iff.mpr hk)
      (hfull.trans hp.symm) v now
  obtain ⟨elast, helast⟩ := Option.isSome_iff_exists.mp h4
  exact ⟨c1, last, elast, h1, h2, helast, h5, hc.tail_is_oldest hs h2 helast⟩

theorem eviction_removes_oldest_witness :
    orderTimes stagedCache = [9, 5, 0] ∧
    ((orderTimes stagedCache).Pairwise (fun a b => a ≥ b) ∧
      (orderTimes stagedCache).length = size stagedCache ∧
      ∀ (k : Nat) (v : Nat) (now : Int), k ∉ indexKeys stagedCache → size stagedCache = 3 →
        ∃ c1 last elast, emplace stagedCache k v now = some c1 ∧
          (orderKeys stagedCache).getLast? = some last ∧
          mapFind stagedCache.m_cache last = some elast ∧ mapFind c1.m_cache last = none ∧
          ∀ j e, mapFind stagedCache.m_cache j = some e → elast.time ≤ e.time) :=
  ⟨rfl, eviction_removes_oldest 3 1 (by decide) 9 stagedCache stagedCache_monoReachable⟩

/-- C16 (`last_touched` never moves backward). When every call reads a clock value at least
as large as the call before it, in every reachable state the `last_touched` of every
entry is at most the clock value `t` of the most recent call; and for every further call
among `find`, `at`, `emplace` (and `size`) at a clock value at least `t`, every key
present both before and after the call has a `last_touched` after the call that is at
least its `last_touched` before it. -/
theorem last_touched_never_decreases (capacity ttl : Nat) (t : Int)
    (c : ExpiringLruCache K V) (hr : MonoReachable capacity ttl t c) :
    (∀ j e, mapFind c.m_cache j = some e → e.time ≤ t) ∧
    ∀ (op : Op K V) (c1 : ExpiringLruCache K V), (∀ now ∈ op.clock, t ≤ now) →
      step c op = some c1 →
      ∀ j e e1, mapFind c.m_cache j = some e → mapFind c1.m_cache j = some e1 →
        e.time ≤ e1.time := by
  have hb := hr.times.2
  refine ⟨hb, ?_⟩
  intro op c1 hmono hstep j e e1 he he1
  rcases step_entry_cases hr.reachable.inv hstep j e1 he1 with h1 | h1
  · rw [he] at h1
    rw [Option.some.inj h1]
  · have h2 := hmono e1.time h1
    have h3 := hb j e he
    omega

theorem last_touched_never_decreases_witness :
    (∀ j e, mapFind stagedCache.m_cache j = some e → e.time ≤ 9) ∧
    ∀ (op : Op Nat Nat) (c1 : ExpiringLruCache Nat Nat), (∀ now ∈ op.clock, 9 ≤ now) →
      step stagedCache op = some c1 →
      ∀ j e e1, mapFind stagedCache.m_cache j = some e → mapFind c1.m_cache j = some e1 →
        e.time ≤ e1.time :=
  last_touched_never_decreases 3 1 9 stagedCache stagedCache_monoReachable

/-- C17 (plain-map equivalence when nothing can be evicted). For every capacity, ttl and
start time `t0`, and every sequence of calls on a fresh cache whose clock values all lie
in the window from `t0` to `t0 + ttl` (in particular non-decreasing ones), if the keys
emplaced are at most `capacity` distinct keys, then the calls are defined and every
`find(k)` of the sequence returns what an ordinary key-value map returns: the value of
the most recent preceding `emplace(k, _)`, or absent if `k` was never emplaced. -/
theorem plain_map_equivalence (capacity ttl : Nat) (t0 : Int) (ops : List (Op K V))
    (hwin : ∀ op ∈ ops, ∀ now ∈ op.clock,
      t0 ≤ now ∧ now ≤ t0 + (ttl : Int) * ticksPerSecond)
    (hkeys : (emplacedKeys ops).dedup.length ≤ capacity) :
    runFinds (new capacity ttl) ops = some (plainFinds (fun _ => none) ops) := by
  refine runFinds_plain ttl t0 (emplacedKeys ops) ops _ _ ?_ (fun _ h => h) hwin
  exact {
    inv := Inv.new capacity ttl
    ttl_eq := rfl
    room := hkeys
    values := fun _ => rfl
    times := by intro j e he; simp [ExpiringLruCache.new, mapFind] at he
    keys := by intro j hj; simp [indexKeys, ExpiringLruCache.new] at hj }

theorem plain_map_equivalence_witness :
    ((emplacedKeys [Op.emplace 1 10 0, Op.find 1 1000000000, Op.find 2 1000000000,
        Op.emplace 2 20 2000000000, Op.emplace 1 11 2000000000,
        Op.find 1 3000000000, Op.find 2 3000000000]).dedup.length ≤ 2) ∧
    runFinds (new 2 3 : ExpiringLruCache Nat Nat)
      [Op.emplace 1 10 0, Op.find 1 1000000000, Op.find 2 1000000000,
        Op.emplace 2 20 2000000000, Op.emplace 1 11 2000000000,
        Op.find 1 3000000000, Op.find 2 3000000000]
      = some [some 10, none, some 11, some 20] :=
  ⟨by decide,
    plain_map_equivalence 2 3 0
      [Op.emplace 1 10 0, Op.find 1 1000000000, Op.find 2 1000000000,
        Op.emplace 2 20 2000000000, Op.emplace 1 11 2000000000,
        Op.find 1 3000000000, Op.find 2 3000000000]
      (by
        intro op hop now hnow
        simp only [List.mem_cons, List.mem_singleton, List.not_mem_nil, or_false] at hop
        rcases hop with h | h | h | h | h | h | h <;> subst h <;> cases hnow <;> decide)
      (by decide)⟩

/-- C18 (a lookup only affects its own key). In a reachable cache, for every clock value
and key `k`, `find(k)` is defined and, whether it hits, expires `k` or misses, it leaves
the entry of every other key `j` as it was (presence, value and `last_touched`), and the
Order list with `k` removed is the same sequence before and after the call. -/
theorem find_affects_only_its_key (capacity ttl : Nat) (c : ExpiringLruCache K V)
    (hr : Reachable capacity ttl c) (k : K) (now : Int) :
    ∃ r c1, find c k now = some (r, c1) ∧
      (∀ j, j ≠ k → mapFind c1.m_cache j = mapFind c.m_cache j) ∧
      (orderKeys c1).filter (fun j => decide (j ≠ k))
        = (orderKeys c).filter (fun j => decide (j ≠ k)) :=
  find_frame hr.inv k now

theorem find_affects_only_its_key_witness :
    ∃ r c1, find typicalCache 2 0 = some (r, c1) ∧
      (∀ j, j ≠ 2 → mapFind c1.m_cache j = mapFind typicalCache.m_cache j) ∧
      (orderKeys c1).filter (fun j => decide (j ≠ 2)) = [3, 1] :=
  find_affects_only_its_key 3 1 typicalCache typicalCache_reachable 2 0

/-- C19 (the eviction and expiry steps are always well-defined). In a reachable cache of
capacity at least one: whenever `emplace` takes its eviction branch (new key, `size()`
equal to the capacity), the Order list is not empty, so `back()` and `pop_back()` are
defined, and its last key is a key of the Index, so `m_cache.erase` removes exactly one
entry; and whenever `find` takes its expiry branch, the iterator stored in the entry
points to the list node that holds the entry's key, so `m_used.erase` is defined and
removes exactly that key. -/
theorem eviction_and_expiry_well_defined (capacity ttl : Nat) (hcap : 1 ≤ capacity)
    (c : ExpiringLruCache K V) (hr : Reachable capacity ttl c) :
    (∀ k : K, k ∉ indexKeys c → size c = capacity →
      ∃ last used, c.m_used ≠ [] ∧ listBack c.m_used = some last ∧
        listPopBack c.m_used = some used ∧ last ∈ indexKeys c ∧
        (mapErase c.m_cache last).length + 1 = c.m_cache.length) ∧
    (∀ (k : K) (e : Entry V) (now : Int), mapFind c.m_cache k = some e →
      isExpired c e now = true →
      listDeref c.m_used e.it = some (Node.mk e.it k) ∧
      ∃ used, listErase c.m_used e.it = some used ∧
        used.map Node.key = (orderKeys c).erase k ∧ k ∉ used.map Node.key ∧
        used.length + 1 = c.m_used.length) := by
  have hc := hr.inv
  have hp := hr.params.1
  constructor
  · intro k _ hfull
    rcases List.eq_nil_or_concat c.m_used with hnil | ⟨front, n, hused⟩
    · have := hc.sizeEq
      rw [hnil] at this
      simp only [List.length_nil] at this
      unfold size at hfull
      omega
    · rw [List.concat_eq_append] at hused
      obtain ⟨e, he, _⟩ := hc.orderToIndex n (by rw [hused]; simp)
      refine ⟨n.key, front, ?_, ?_, ?_, ?_, mapErase_length he⟩
      · rw [hused]; simp
      · rw [hused]; exact listBack_concat front n
      · rw [hused]; exact listPopBack_concat front n
      · exact mapFind_isSome_iff.mp (by rw [he]; rfl)
  · intro k e now hk _
    have hmem := hc.indexToOrder k e hk
    have hd := listDeref_of_mem hc.idsNodup hmem
    have hkeys : (listUnlink c.m_used e.it).map Node.key = (orderKeys c).erase k :=
      listUnlink_keys hc.orderKeys_nodup hmem hc.idsNodup
    refine ⟨hd, listUnlink c.m_used e.it, ?_, hkeys, ?_, listUnlink_length hd⟩
    · simp only [listErase]
      rw [hd]
    · rw [hkeys]
      exact hc.orderKeys_nodup.not_mem_erase

theorem eviction_and_expiry_well_defined_witness :
    (∀ k : Nat, k ∉ indexKeys typicalCache → size typicalCache = 3 →
      ∃ last used, typicalCache.m_used ≠ [] ∧ listBack typicalCache.m_used = some last ∧
        listPopBack typicalCache.m_used = some used ∧ last ∈ indexKeys typicalCache ∧
        (mapErase typicalCache.m_cache last).length + 1 = typicalCache.m_cache.length) ∧
    (∀ (k : Nat) (e : Entry Nat) (now : Int), mapFind typicalCache.m_cache k = some e →
      isExpired typicalCache e now = true →
      listDeref typicalCache.m_used e.it = some (Node.mk e.it k) ∧
      ∃ used, listErase typicalCache.m_used e.it = some used ∧
        used.map Node.key = (orderKeys typicalCache).erase k ∧ k ∉ used.map Node.key ∧
        used.length + 1 = typicalCache.m_used.length) :=
  eviction_and_expiry_well_defined 3 1 (by decide) typicalCache typicalCache_reachable

end ExpiringLruCache
